import Mathlib

/-!
Verification of the `faculty180-explorer` scripts against their
natural-language specification.

The development shallowly embeds the parts of the Python sources that the
claims are about:

* `get_25_users.py` / `get_all_users.py`: HMAC-SHA1 request signing
  (`generate_auth_header`), response-shape normalisation
  (`extract_users_from_response`), the concurrent paginated fetch loop
  (`fetch_users_concurrent`), the SIGINT handler (`signal_handler` /
  `save_json`).
* `get_user.py` / `paginated_get_user.py`: the name-matching search
  (`find_user` / `search_batch_for_user`) and the sequential paginated
  fetch loop.
* `parallel_get_user.py`: the process-pool variant (`find_user_parallel`),
  in particular its batch scheduling and its merge of per-page results.
* `get_user_publications.py`: publication filtering and de-duplication.

Python strings become `String`, byte strings become `List Nat` (each entry
a byte value), dicts whose keys matter become structures or association
lists in insertion order, and machine-word arithmetic inside SHA-1 is `Nat`
with explicit `% 2 ^ 32`.  Loops that fetch pages from the network are
modelled over an explicit backing data source (a list of records sliced
into pages, or a page-indexed function that can also fail); loop recursion
uses an explicit fuel argument so that every definition is executable and
reduces in the kernel.  Fuel is a modelling device only: every theorem
below either holds for all fuel values or is accompanied by a
fuel-independence statement.
-/

/-! ## String helpers (Python `in`, `lower`, truthiness) -/

/-- Python's substring test `needle in hay`, on explicit character lists.
The empty needle is a substring of everything, as in Python. -/
def subListOf (needle : List Char) : List Char → Bool
  | [] => needle.isEmpty
  | c :: t => needle.isPrefixOf (c :: t) || subListOf needle t

/-- Python's `needle in hay` on strings. -/
def strContains (hay needle : String) : Bool :=
  subListOf needle.data hay.data

/-- Python's `s.lower()` (ASCII case folding, which is all the scripts
rely on), written over the character list so that it reduces in the
kernel. -/
def strLower (s : String) : String :=
  String.mk (s.data.map Char.toLower)

/-- Python truthiness of an optional string: `None` and `""` are falsy. -/
def pyTruthy : Option String → Bool
  | none => false
  | some s => !s.isEmpty

/-- Python's `a or b` on optional strings: keep `a` when truthy, else `b`. -/
def pyOr (a b : Option String) : Option String :=
  match a with
  | some s => if s.isEmpty then b else some s
  | none => b

/-! ## Bytes, UTF-8, SHA-1, HMAC-SHA1, base64

Embeds the cryptographic pipeline used by `generate_auth_header` in
`get_25_users.py:51-60` and `get_all_users.py:108-129`.  The Python code
delegates to the standard library (`hmac`, `hashlib.sha1`, `base64`); the
definitions below implement those primitives executably so that the claim
and its reference vectors can be evaluated.  Bytes are `Nat` values kept
below 256 by construction; 32-bit words are `Nat` values reduced
`% 2 ^ 32` wherever overflow matters. -/

/-- UTF-8 encoding of one character (RFC 3629), as Python `str.encode`. -/
def utf8Char (c : Char) : List Nat :=
  let n := c.toNat
  if n < 128 then [n]
  else if n < 2048 then
    [192 ||| (n >>> 6), 128 ||| (n &&& 63)]
  else if n < 65536 then
    [224 ||| (n >>> 12), 128 ||| ((n >>> 6) &&& 63), 128 ||| (n &&& 63)]
  else
    [240 ||| (n >>> 18), 128 ||| ((n >>> 12) &&& 63),
     128 ||| ((n >>> 6) &&& 63), 128 ||| (n &&& 63)]

/-- Python's `s.encode("utf-8")`. -/
def utf8Encode (s : String) : List Nat :=
  (s.data.map utf8Char).flatten

/-- Rotate a 32-bit word left by `k` bits. -/
def rotl32 (k n : Nat) : Nat :=
  ((n <<< k) ||| (n >>> (32 - k))) % 4294967296

/-- Big-endian bytes of `n` on `k` bytes. -/
def natToBytesBE (k n : Nat) : List Nat :=
  (List.range k).map fun i => (n >>> (8 * (k - 1 - i))) &&& 255

/-- Group bytes into big-endian 32-bit words (groups of 4). -/
def bytesToWords : List Nat → List Nat
  | b0 :: b1 :: b2 :: b3 :: rest =>
      ((((b0 <<< 8) ||| b1) <<< 8 ||| b2) <<< 8 ||| b3) :: bytesToWords rest
  | _ => []

/-- SHA-1 padding: append `0x80`, zeros to 56 mod 64, and the 64-bit
big-endian bit length. -/
def sha1Pad (msg : List Nat) : List Nat :=
  let len := msg.length
  let z := (64 + 56 - ((len + 1) % 64)) % 64
  msg ++ [128] ++ List.replicate z 0 ++ natToBytesBE 8 (len * 8)

/-- Extend the 16 message words by `n` more schedule words. -/
def sha1Extend : List Nat → Nat → List Nat
  | ws, 0 => ws
  | ws, n + 1 =>
    let l := ws.length
    let x := (ws.getD (l - 3) 0) ^^^ (ws.getD (l - 8) 0) ^^^
             (ws.getD (l - 14) 0) ^^^ (ws.getD (l - 16) 0)
    sha1Extend (ws ++ [rotl32 1 x]) n

/-- The SHA-1 round constant for round `t`. -/
def sha1K (t : Nat) : Nat :=
  if t < 20 then 1518500249
  else if t < 40 then 1859775393
  else if t < 60 then 2400959708
  else 3395469782

/-- The SHA-1 round function `f_t`. -/
def sha1F (t b c d : Nat) : Nat :=
  if t < 20 then (b &&& c) ||| ((b ^^^ 4294967295) &&& d)
  else if t < 40 then b ^^^ c ^^^ d
  else if t < 60 then (b &&& c) ||| (b &&& d) ||| (c &&& d)
  else b ^^^ c ^^^ d

/-- One SHA-1 round on state `(a, b, c, d, e)` with word `w`. -/
def sha1Round (st : Nat × Nat × Nat × Nat × Nat) (tw : Nat × Nat) :
    Nat × Nat × Nat × Nat × Nat :=
  let (a, b, c, d, e) := st
  let (t, w) := tw
  let temp := (rotl32 5 a + sha1F t b c d + e + sha1K t + w) % 4294967296
  (temp, a, rotl32 30 b, c, d)

/-- Process one 64-byte block, updating the running hash state. -/
def sha1Block (h : Nat × Nat × Nat × Nat × Nat) (block : List Nat) :
    Nat × Nat × Nat × Nat × Nat :=
  let ws := sha1Extend (bytesToWords block) 64
  let (h0, h1, h2, h3, h4) := h
  let (a, b, c, d, e) := ws.enum.foldl sha1Round h
  ((h0 + a) % 4294967296, (h1 + b) % 4294967296, (h2 + c) % 4294967296,
   (h3 + d) % 4294967296, (h4 + e) % 4294967296)

/-- Split a byte list into 64-byte chunks (fuel-structural on length). -/
def chunks64Go : Nat → List Nat → List (List Nat)
  | 0, _ => []
  | _ + 1, [] => []
  | n + 1, x :: xs => (x :: xs).take 64 :: chunks64Go n ((x :: xs).drop 64)

/-- Split a byte list into 64-byte chunks. -/
def chunks64 (l : List Nat) : List (List Nat) :=
  chunks64Go l.length l

/-- SHA-1 of a byte list, as a 20-byte list. -/
def sha1 (msg : List Nat) : List Nat :=
  let init := (1732584193, 4023233417, 2562383102, 271733878, 3285377520)
  let (h0, h1, h2, h3, h4) := (chunks64 (sha1Pad msg)).foldl sha1Block init
  natToBytesBE 4 h0 ++ natToBytesBE 4 h1 ++ natToBytesBE 4 h2 ++
  natToBytesBE 4 h3 ++ natToBytesBE 4 h4

/-- HMAC-SHA1 (RFC 2104) with a 64-byte block size, as Python's
`hmac.new(key, msg, hashlib.sha1).digest()`. -/
def hmacSha1 (key msg : List Nat) : List Nat :=
  let k1 := if 64 < key.length then sha1 key else key
  let k2 := k1 ++ List.replicate (64 - k1.length) 0
  sha1 ((k2.map (· ^^^ 92)) ++ sha1 ((k2.map (· ^^^ 54)) ++ msg))

/-- The base64 alphabet character for a 6-bit value. -/
def b64Char (n : Nat) : Char :=
  "ABCDEFGHIJKLMNOPQRSTUVWXYZabcdefghijklmnopqrstuvwxyz0123456789+/".data.getD n 'A'

/-- Base64-encode a byte list (RFC 4648, with `=` padding). -/
def b64Go : List Nat → List Char
  | b0 :: b1 :: b2 :: rest =>
      b64Char (b0 >>> 2) :: b64Char (((b0 &&& 3) <<< 4) ||| (b1 >>> 4)) ::
      b64Char (((b1 &&& 15) <<< 2) ||| (b2 >>> 6)) :: b64Char (b2 &&& 63) ::
      b64Go rest
  | [b0, b1] =>
      [b64Char (b0 >>> 2), b64Char (((b0 &&& 3) <<< 4) ||| (b1 >>> 4)),
       b64Char ((b1 &&& 15) <<< 2), '=']
  | [b0] =>
      [b64Char (b0 >>> 2), b64Char ((b0 &&& 3) <<< 4), '=', '=']
  | [] => []

/-- Python's `base64.b64encode(..).decode("utf-8")`. -/
def base64Encode (bs : List Nat) : String :=
  String.mk (b64Go bs)

/-- `generate_auth_header` of `get_all_users.py:108-129` (the
`get_25_users.py:51-60` variant is byte-for-byte the same computation),
for an explicitly supplied timestamp string.  The `timestamp is None`
branch reads the wall clock and is outside the embedding; every caller in
the repository that matters to the claims passes through this path with
the generated timestamp fixed. -/
def generate_auth_header (publicKey privateKey method requestString timestamp :
    String) : String × String :=
  let verb_request_string :=
    method ++ "\n\n\n" ++ timestamp ++ "\n" ++ requestString
  let encrypted_string :=
    hmacSha1 (utf8Encode privateKey) (utf8Encode verb_request_string)
  let signature := base64Encode encrypted_string
  ("INTF " ++ publicKey ++ ":" ++ signature, timestamp)

/-! ## Python JSON-ish values and `extract_users_from_response` -/

/-- A Python value as far as the response-shape handling cares: strings,
numbers, `None`, lists and (insertion-ordered) dicts. -/
inductive PyVal where
  | vstr (s : String)
  | vnum (n : Int)
  | vnone
  | vlist (l : List PyVal)
  | vdict (kvs : List (String × PyVal))

/-- Python's `key in dict`. -/
def dictHasKey (kvs : List (String × PyVal)) (k : String) : Bool :=
  kvs.any fun kv => kv.1 == k

/-- Python's `dict[key]` (first binding; a Python dict has unique keys). -/
def dictGet (kvs : List (String × PyVal)) (k : String) : PyVal :=
  match kvs.find? (fun kv => kv.1 == k) with
  | some kv => kv.2
  | none => PyVal.vnone

/-- `extract_users_from_response` (`get_all_users.py:177-191`): a list is
returned unchanged; a dict is scanned for the wrapper keys `"data"`,
`"users"`, `"results"` in that order and the first present key's value is
returned; a non-empty dict without those keys becomes a one-element list;
everything else becomes the empty list. -/
def extract_users_from_response : PyVal → PyVal
  | .vlist l => .vlist l
  | .vdict kvs =>
    match ["data", "users", "results"].find? (fun k => dictHasKey kvs k) with
    | some k => dictGet kvs k
    | none => if kvs.isEmpty then .vlist [] else .vlist [.vdict kvs]
  | _ => .vlist []

/-- Claim C9's wording of `extract_users_from_response`, written as the
claim states it (refinement reference for `c9_extract_users`): a list
input is returned unchanged; for a dict the value of the first key present
among `"data"`, `"users"`, `"results"` in that order; a non-empty dict
with none of those keys yields the one-element list holding that dict; an
empty dict and any other input yield the empty list. -/
def extractUsersClaim : PyVal → PyVal
  | .vlist l => .vlist l
  | .vdict kvs =>
    if dictHasKey kvs "data" then dictGet kvs "data"
    else if dictHasKey kvs "users" then dictGet kvs "users"
    else if dictHasKey kvs "results" then dictGet kvs "results"
    else if kvs.isEmpty then .vlist []
    else .vlist [.vdict kvs]
  | _ => .vlist []

/-! ## The name-matching search

Embeds the search shared by `get_user.py:106-191` (`find_user`),
`paginated_get_user.py:137-234` (`search_batch_for_user`) and the worker
of `parallel_get_user.py:140-249`; the three copies are line-for-line the
same matching logic.  Records are the items of the activity data: a dict
with an `"activities"` key (plus an optional section name) or anything
else, which the code skips.  Field values are modelled as strings — the
code only ever matches against `isinstance(value, str)` fields, and
`str(activity)` is modelled by the faithful rendering `pyStrActivity`
below. -/

structure Activity where
  userid : Option String
  facultyid : Option String
  fields : List (String × String)
deriving DecidableEq

inductive Rec where
  | withActs (sectionName : Option String) (acts : List Activity)
  | other
deriving DecidableEq

/-- The search configuration: target name, `early_exit`, `max_users`. -/
structure SearchCtx where
  firstname : String
  lastname : String
  early_exit : Bool
  max_users : Nat

/-- The pre-compiled literal name variations
(`get_user.py:80-86`, `paginated_get_user.py:267-273`).  `take 1` is
Python's `firstname_lower[0]` for the nonempty firstnames the scripts
guard for. -/
def nameVariations (c : SearchCtx) : List String :=
  let f := strLower c.firstname
  let l := strLower c.lastname
  [f ++ " " ++ l, l ++ ", " ++ f, f.take 1 ++ ". " ++ l, l ++ " " ++ f,
   l ++ "," ++ f]

/-- The key terms of the `has_name_fields` quick check
(`get_user.py:119-122`). -/
def nameTerms5 : List String := ["name", "author", "faculty", "person", "user"]

/-- The key terms of the first matching pass (`get_user.py:136`). -/
def nameTerms4 : List String := ["name", "author", "faculty", "person"]

/-- Does the (lowercased) key contain one of the five quick-check terms? -/
def keyNameish5 (k : String) : Bool :=
  nameTerms5.any fun t => strContains (strLower k) t

/-- Does the (lowercased) key contain one of the four first-pass terms? -/
def keyNameish4 (k : String) : Bool :=
  nameTerms4.any fun t => strContains (strLower k) t

/-- `has_name_fields` (`get_user.py:119-122`): some field key contains a
name-like term.  (Python's `any(key for key in ...)` checks truthiness of
the yielded keys, but a key containing one of the terms is necessarily
non-empty, so this is the same.) -/
def hasNameFields (a : Activity) : Bool :=
  a.fields.any fun kv => keyNameish5 kv.1

/-- `activity.get("userid") or activity.get("facultyid")` followed by the
`if not user_id: continue` truthiness guard (`get_user.py:109-111`). -/
def effUserId (a : Activity) : Option String :=
  match pyOr a.userid a.facultyid with
  | some s => if s.isEmpty then none else some s
  | none => none

/-- Python `repr`-style quoting used inside `str(activity)` (string
escaping inside values is not modelled). -/
def pyQuote (s : String) : String := "\x27" ++ s ++ "\x27"

/-- One `key: value` item of a Python dict rendering. -/
def pyKV (k v : String) : String := pyQuote k ++ ": " ++ pyQuote v

/-- `str` of the fields sub-dict of an activity. -/
def pyStrFields (fs : List (String × String)) : String :=
  "\x7b" ++ String.intercalate ", " (fs.map fun kv => pyKV kv.1 kv.2) ++ "\x7d"

/-- `str(activity)` for the modelled activity dict, insertion order
`userid`, `facultyid`, `fields` with absent keys omitted
(`get_user.py:159`). -/
def pyStrActivity (a : Activity) : String :=
  "\x7b" ++ String.intercalate ", " (
    (match a.userid with | some u => [pyKV "userid" u] | none => []) ++
    (match a.facultyid with | some f => [pyKV "facultyid" f] | none => []) ++
    ["\x27fields\x27: " ++ pyStrFields a.fields]) ++ "\x7d"

/-- The first-pass per-field condition (`get_user.py:133-155`): a string
value longer than 2, under a name-like key, containing a name variation or
both names separately. -/
def pass1Field (c : SearchCtx) (k v : String) : Bool :=
  2 < v.length && keyNameish4 k &&
    ((nameVariations c).any (fun var => strContains (strLower v) var) ||
     (strContains (strLower v) (strLower c.firstname) &&
      strContains (strLower v) (strLower c.lastname)))

/-- First pass: the first field matching `pass1Field`, with its value. -/
def pass1 (c : SearchCtx) (fields : List (String × String)) :
    Option (String × String) :=
  fields.find? fun kv => pass1Field c kv.1 kv.2

/-- Second pass (`get_user.py:157-169`): search `str(activity).lower()`
for the first present name variation; on success, the reported field is
the first field whose value contains that variation (possibly none). -/
def pass2 (c : SearchCtx) (a : Activity) : Option (Option (String × String)) :=
  let astr := strLower (pyStrActivity a)
  match (nameVariations c).find? (fun var => strContains astr var) with
  | none => none
  | some var => some (a.fields.find? fun kv => strContains (strLower kv.2) var)

/-- Whether an activity matches, and which field/value pair is the
evidence: `none` = no match, `some none` = match without an identified
field, `some (some (k, v))` = match at field `k` with value `v`. -/
def matchActivity (c : SearchCtx) (a : Activity) :
    Option (Option (String × String)) :=
  match pass1 c a.fields with
  | some kv => some (some kv)
  | none => pass2 c a

/-- One entry of the `found_users` mapping (`get_user.py:173-180`). -/
structure Entry where
  user_id : String
  sections_found : List String
  matching_fields : List (String × String)
deriving DecidableEq

/-- The `found_users` dict, in insertion order. -/
abbrev FoundMap := List (String × Entry)

/-- Dict lookup on the found-users mapping. -/
def lookupFM (fm : FoundMap) (uid : String) : Option Entry :=
  match fm.find? (fun p => p.1 == uid) with
  | some p => some p.2
  | none => none

/-- The entry stored for a fresh match (`get_user.py:173-180`);
`matching_fields` is empty when no field was identified or the identified
key is falsy (`[...] if matching_field else []`). -/
def mkEntry (uid : String) (sn : Option String)
    (mf : Option (String × String)) : Entry :=
  { user_id := uid
    sections_found := [sn.getD "Unknown Section"]
    matching_fields :=
      match mf with
      | some kv => if kv.1.isEmpty then [] else [kv]
      | none => [] }

/-- Processing of one activity (`get_user.py:106-180`): resolve the user
id, skip falsy ids and already-found ids, require a name-like field key,
then match and store. -/
def stepActivity (c : SearchCtx) (sn : Option String) (fm : FoundMap)
    (a : Activity) : FoundMap :=
  match effUserId a with
  | none => fm
  | some uid =>
    if (lookupFM fm uid).isSome then fm
    else if hasNameFields a then
      match matchActivity c a with
      | none => fm
      | some mf => fm ++ [(uid, mkEntry uid sn mf)]
    else fm

/-- The inner activity loop with the in-loop early-exit check
(`get_user.py:184-187`, `paginated_get_user.py:225-228`): after storing a
new entry, stop when `early_exit` and `max_users` entries are reached.
The second component signals the stop. -/
def searchActs (c : SearchCtx) (sn : Option String) :
    FoundMap → List Activity → FoundMap × Bool
  | fm, [] => (fm, false)
  | fm, a :: rest =>
    let fm' := stepActivity c sn fm a
    if fm.length < fm'.length ∧ c.early_exit = true ∧ c.max_users ≤ fm'.length
    then (fm', true)
    else searchActs c sn fm' rest

/-- The record (section) loop with the section-level early-exit check
(`get_user.py:96-191`, `paginated_get_user.py:137-234`): non-dict records
and records without `"activities"` are skipped. -/
def searchRecs (c : SearchCtx) : FoundMap → List Rec → FoundMap × Bool
  | fm, [] => (fm, false)
  | fm, Rec.other :: rest => searchRecs c fm rest
  | fm, Rec.withActs sn acts :: rest =>
    let p := searchActs c sn fm acts
    if p.2 then (p.1, true)
    else if c.early_exit = true ∧ c.max_users ≤ p.1.length then (p.1, true)
    else searchRecs c p.1 rest

/-- The search core of `find_user` (`get_user.py:93-191`) run over a full
record set, and of `search_batch_for_user` run over one batch starting
from an empty mapping. -/
def find_user_core (c : SearchCtx) (records : List Rec) : FoundMap :=
  (searchRecs c [] records).1

/-! ### The parallel variant's merge (`parallel_get_user.py:341-350`) -/

/-- Replace the entry stored under `uid` (Python in-place mutation of the
dict value). -/
def updateFM : FoundMap → String → Entry → FoundMap
  | [], _, _ => []
  | p :: rest, uid, e =>
    if p.1 == uid then (uid, e) :: rest else p :: updateFM rest uid e

/-- Merging one per-page entry into the accumulated mapping
(`parallel_get_user.py:343-350`): new ids are inserted; an existing id has
the page's sections and matching fields appended to its lists. -/
def mergeOne (fm : FoundMap) (pe : String × Entry) : FoundMap :=
  match lookupFM fm pe.1 with
  | none => fm ++ [pe]
  | some e =>
    updateFM fm pe.1
      { e with
        sections_found := e.sections_found ++ pe.2.sections_found
        matching_fields := e.matching_fields ++ pe.2.matching_fields }

/-- Merging a whole page result, entries in page order. -/
def mergeFound (fm : FoundMap) (pageFound : FoundMap) : FoundMap :=
  pageFound.foldl mergeOne fm

/-! ## Pagination events and the sequential paginated loop

A trace of the fetch loop: `req p` is the request of page `p` being
issued, `obs p c` is the loop examining the response of page `p` and
seeing `c` records.  The backing data source stands for the remote data
set: page `p` of size `P` holds the records at offsets
`(p-1)*P .. p*P - 1`, exactly the `offset`/`limit` window the scripts
request. -/

inductive Event where
  | req (page : Nat)
  | obs (page count : Nat)
deriving DecidableEq

/-- The common exit path of `find_user`
(`paginated_get_user.py:340-399`): a non-empty mapping is returned, an
empty one becomes "no result" (`None`). -/
def finishFM (fm : FoundMap) : Option FoundMap :=
  if fm.isEmpty then none else some fm

/-- Page `page` of the backing record set, as served for
`limit = P, offset = (page-1)*P`. -/
def pageSlice (data : List Rec) (P page : Nat) : List Rec :=
  (data.drop ((page - 1) * P)).take P

/-- A reliable page source backed by a record list. -/
def listSrc (data : List Rec) (P : Nat) : Nat → Option (List Rec) :=
  fun page => some (pageSlice data P page)

/-- The sequential paginated loop of `find_user`
(`paginated_get_user.py:283-336`), over a page source that can also fail
(`none` = the `except` branch of lines 329-336).  In source order: a
failed fetch returns the users found so far (or no result if none yet);
an empty page ends the loop; the batch is searched; the search's
early-exit signal ends the loop; a short page (fewer than `page_size`
records) ends the loop; the hard-coded `offset >= 54` safety check ends
the loop; otherwise the next page is fetched.  `fuel` only bounds the
recursion and is irrelevant whenever it exceeds the number of loop
iterations (see `c2_amended_pagination`). -/
def seqRunF (c : SearchCtx) (src : Nat → Option (List Rec)) (P : Nat) :
    Nat → Nat → FoundMap → List Event × Option FoundMap
  | 0, _, fm => ([], finishFM fm)
  | fuel + 1, page, fm =>
    match src page with
    | none => ([Event.req page], if fm.isEmpty then none else some fm)
    | some pd =>
      let es := [Event.req page, Event.obs page pd.length]
      if pd.isEmpty then (es, finishFM fm)
      else
        let p := searchRecs c fm pd
        if p.2 then (es, finishFM p.1)
        else if pd.length < P then (es, finishFM p.1)
        else if 1 < page ∧ pd.length = P ∧ 54 ≤ (page - 1) * P then
          (es, finishFM p.1)
        else
          let r := seqRunF c src P fuel (page + 1) p.1
          (es ++ r.1, r.2)

/-- The sequential loop run from page 1 on a reliable list source. -/
def seqRun (c : SearchCtx) (data : List Rec) (P fuel : Nat) :
    List Event × Option FoundMap :=
  seqRunF c (listSrc data P) P fuel 1 []

/-- Is this a request event? -/
def isReq : Event → Bool
  | .req _ => true
  | .obs _ _ => false

/-- Number of page requests in a trace. -/
def countReqs (es : List Event) : Nat := (es.filter isReq).length

/-- Number of requests for pages strictly beyond `p` in a trace. -/
def reqsAbove (p : Nat) (es : List Event) : Nat :=
  (es.filter fun e =>
    match e with
    | .req q => decide (p < q)
    | .obs _ _ => false).length

/-- Pages fetched by the sequential loop on a backing set of
`data.length` records with page size `P`. -/
def seqPages (c : SearchCtx) (data : List Rec) (P fuel : Nat) : Nat :=
  countReqs (seqRun c data P fuel).1

/-! ## The concurrent fetch loop of `get_all_users.py`

`fetch_users_concurrent` (`get_all_users.py:194-276`) fetches page 1,
then windows of `CONCURRENT_PAGES = 5` pages at a time, examining the
responses of a window in page order.  The page source is composed with
`extract_users_from_response`, so the model's pages are already record
lists (`PageRes.ok us`) or failures (`PageRes.fail`, the
`isinstance(result, Exception)` branch). -/

inductive PageRes where
  | fail
  | ok (us : List Nat)
deriving DecidableEq

/-- Processing of one gathered window in page order
(`get_all_users.py:243-262`): failures are logged and skipped; non-empty
results are appended to the accumulator and counted in `pages_with_data`;
the first result shorter than `limit` ends the whole fetch.  Returns
(accumulator, stop flag, pages_with_data). -/
def procBatch (limit : Nat) :
    List PageRes → List Nat → Nat → List Nat × Bool × Nat
  | [], coll, pwd => (coll, false, pwd)
  | .fail :: rest, coll, pwd => procBatch limit rest coll pwd
  | .ok us :: rest, coll, pwd =>
    let coll' := if us.isEmpty then coll else coll ++ us
    let pwd' := if us.isEmpty then pwd else pwd + 1
    if us.length < limit then (coll', true, pwd')
    else procBatch limit rest coll' pwd'

/-- The window loop (`get_all_users.py:226-273`): stop on a short page or
when no window page had data, else advance by 5 pages. -/
def concAux (S : Nat → PageRes) (limit : Nat) :
    Nat → Nat → List Nat → List Nat
  | 0, _, coll => coll
  | fuel + 1, page, coll =>
    let r := procBatch limit ((List.range 5).map fun i => S (page + i)) coll 0
    if r.2.1 then r.1
    else if r.2.2 = 0 then r.1
    else concAux S limit fuel (page + 5) r.1

/-- `fetch_users_concurrent` (`get_all_users.py:194-276`): page 1 first —
a failure or an empty page 1 returns the empty result, a short page 1 is
the whole result — then the window loop from page 2. -/
def fetch_users_concurrent (S : Nat → PageRes) (limit fuel : Nat) :
    List Nat :=
  match S 1 with
  | .fail => []
  | .ok us =>
    if us.isEmpty then []
    else if us.length < limit then us
    else concAux S limit fuel 2 us

/-- Page `page` of a backing list of user records (for the trace model of
the concurrent loop, where only page lengths matter). -/
def pageSliceU (data : List Nat) (P page : Nat) : List Nat :=
  (data.drop ((page - 1) * P)).take P

/-- Observation events of one window, in processing order, stopping at
the first short page (`get_all_users.py:244-262`). -/
def concBatchObs (P : Nat) : List (Nat × Nat) → List Event × Bool
  | [] => ([], false)
  | (p, c) :: rest =>
    if c < P then ([Event.obs p c], true)
    else
      let r := concBatchObs P rest
      (Event.obs p c :: r.1, r.2)

/-- Event trace of the window loop: all five requests of a window are
issued before any of its responses is examined. -/
def concTraceAux (data : List Nat) (P : Nat) : Nat → Nat → List Event
  | 0, _ => []
  | fuel + 1, page =>
    let pcs := (List.range 5).map fun i =>
      (page + i, (pageSliceU data P (page + i)).length)
    let reqs := (List.range 5).map fun i => Event.req (page + i)
    let r := concBatchObs P pcs
    if r.2 then reqs ++ r.1
    else if (pcs.filter fun pc => 0 < pc.2).length = 0 then reqs ++ r.1
    else reqs ++ r.1 ++ concTraceAux data P fuel (page + 5)

/-- Event trace of `fetch_users_concurrent` on a reliable backing list. -/
def concTrace (data : List Nat) (P fuel : Nat) : List Event :=
  let c1 := (pageSliceU data P 1).length
  let e1 := [Event.req 1, Event.obs 1 c1]
  if c1 = 0 then e1
  else if c1 < P then e1
  else e1 ++ concTraceAux data P fuel 2

/-! ## The process-parallel variant (`parallel_get_user.py`)

`find_user_parallel` (`parallel_get_user.py:251-404`) submits windows of
`batch_size = 2 * max_workers` pages to a process pool and merges each
worker's complete per-page result.  `as_completed` yields results in a
nondeterministic order; the trace below fixes the one schedule in which
results arrive in page order — the claims settled against this model do
not depend on the schedule, but the model is one legal execution. -/

/-- `search_page_worker` (`parallel_get_user.py:140-249`): one page is
fetched and searched with the same matching code as the sequential
variants but with no early-exit checks, returning
(page, per-page found users, section count).  A failed or empty page
surfaces to the orchestrator as no data and no found users, which is also
what the model returns for it. -/
def search_page_worker (c : SearchCtx) (data : List Rec) (P page : Nat) :
    Nat × FoundMap × Nat :=
  let pd := pageSlice data P page
  (page, (searchRecs { c with early_exit := false } [] pd).1, pd.length)

/-- State of processing one window of worker results. -/
structure ParStep where
  events : List Event
  fm : FoundMap
  stopped : Bool
  anyData : Bool

/-- Processing the results of one window
(`parallel_get_user.py:329-365`): each result updates the
data-seen flag, non-empty per-page results are merged via `mergeFound`,
and when `early_exit` is on and `max_users` ids are accumulated the
remaining results of the window are abandoned. -/
def parProc (early : Bool) (maxU : Nat) :
    List (Nat × FoundMap × Nat) → FoundMap → ParStep
  | [], fm => ⟨[], fm, false, false⟩
  | (p, pf, cnt) :: rest, fm =>
    if pf.isEmpty then
      let r := parProc early maxU rest fm
      ⟨Event.obs p cnt :: r.events, r.fm, r.stopped, (0 < cnt) || r.anyData⟩
    else
      let fm' := mergeFound fm pf
      if early = true ∧ maxU ≤ fm'.length then
        ⟨[Event.obs p cnt], fm', true, 0 < cnt⟩
      else
        let r := parProc early maxU rest fm'
        ⟨Event.obs p cnt :: r.events, r.fm, r.stopped, (0 < cnt) || r.anyData⟩

/-- The window loop of `find_user_parallel`
(`parallel_get_user.py:302-387`): starts from an estimate of 200 pages,
stops after 3 consecutive windows without data or past the estimate,
extends the estimate by 100 near its end while data keeps arriving, and
stops early when enough users are found. -/
def parTraceAux (c : SearchCtx) (data : List Rec) (P bs : Nat) :
    Nat → Nat → Nat → Nat → FoundMap → List Event
  | 0, _, _, _, _ => []
  | fuel + 1, page, est, empties, fm =>
    if page ≤ est ∧ empties < 3 then
      let last := min (page + bs - 1) est
      let ps := List.range' page (last + 1 - page)
      let reqs := ps.map Event.req
      let results := ps.map fun p => search_page_worker c data P p
      let st := parProc c.early_exit c.max_users results fm
      if st.stopped then reqs ++ st.events
      else if c.early_exit = true ∧ c.max_users ≤ st.fm.length then
        reqs ++ st.events
      else
        let empties' := if st.anyData then 0 else empties + 1
        let est' := if est - bs ≤ page ∧ st.anyData then est + 100 else est
        reqs ++ st.events ++
          parTraceAux c data P bs fuel (last + 1) est' empties' st.fm
    else []

/-- Event trace of `find_user_parallel` with `max_workers` workers
(window size `2 * max_workers`, initial estimate 200 pages). -/
def find_user_parallel_trace (c : SearchCtx) (data : List Rec)
    (P workers fuel : Nat) : List Event :=
  parTraceAux c data P (workers * 2) fuel 1 200 0 []

/-! ## JSON dump and the SIGINT handler of `get_all_users.py` -/

mutual

/-- Rendering of a collected record list as done by
`json.dump(data, f, indent=2)` (`get_all_users.py:291-297`), up to
whitespace: the pretty-printing indentation is not modelled, the
rendered structure and content are. -/
def renderJson : PyVal → String
  | .vstr s => "\"" ++ s ++ "\""
  | .vnum n => toString n
  | .vnone => "null"
  | .vlist l => "[" ++ String.intercalate ", " (renderJsonList l) ++ "]"
  | .vdict kvs =>
      "\x7b" ++ String.intercalate ", " (renderJsonObj kvs) ++ "\x7d"

/-- Renderings of the items of a JSON array. -/
def renderJsonList : List PyVal → List String
  | [] => []
  | j :: t => renderJson j :: renderJsonList t

/-- Renderings of the bindings of a JSON object. -/
def renderJsonObj : List (String × PyVal) → List String
  | [] => []
  | kv :: t => ("\"" ++ kv.1 ++ "\": " ++ renderJson kv.2) :: renderJsonObj t

end

/-- `save_json` (`get_all_users.py:291-297`): the file content written
for a record list. -/
def save_json (data : List PyVal) : String :=
  renderJson (PyVal.vlist data)

/-- `signal_handler` (`get_all_users.py:61-78`): always exits with code
130; when records have been collected and the output filename is set, the
collected records are saved first.  Returns (exit code, written file as
name and content, if any). -/
def signal_handler (collected : List PyVal) (filename : String) :
    Nat × Option (String × String) :=
  (130,
   if !collected.isEmpty && !filename.isEmpty then
     some (filename, save_json collected)
   else none)

/-! ## `get_user_publications.py` -/

/-- An activity record as the publications script reads it: a string
field map (`activity.get(...)`). -/
abbrev PAct := List (String × String)

/-- Python `activity.get(key)`. -/
def pGet (a : PAct) (k : String) : Option String :=
  match a.find? (fun kv => kv.1 == k) with
  | some kv => some kv.2
  | none => none

/-- `is_publication` (`get_user_publications.py:19-35`). -/
def is_publication (a : PAct) : Bool :=
  let text := strLower ((pyOr (pGet a "type") (some "")).getD "")
  (match pGet a "activity_type" with
   | some s => s == "publication" || s == "scholarly_work"
   | none => false) ||
  (["journal", "paper", "book", "chapter", "conference", "proceeding",
    "report", "publication"].any fun w => strContains text w)

/-- A normalised publication (`simplify`,
`get_user_publications.py:38-51`). -/
structure Pub where
  title : Option String
  authors : Option String
  venue : Option String
  year : Option String
  ptype : Option String
  doi : Option String
  url : Option String
  pgs : Option String
  volume : Option String
  issue : Option String
deriving DecidableEq

/-- `simplify` (`get_user_publications.py:38-51`). -/
def simplify (a : PAct) : Pub :=
  { title := pGet a "title"
    authors := pGet a "authors"
    venue := pyOr (pGet a "journal") (pGet a "location")
    year := pyOr (pGet a "yearinfo") (pGet a "dateinfo")
    ptype := pGet a "type"
    doi := pyOr (pGet a "DOI") (pGet a "doi")
    url := pyOr (pGet a "URL") (pGet a "url")
    pgs := pGet a "pages"
    volume := pGet a "volume"
    issue := pGet a "issue" }

/-- The de-duplication key `(p.get("title"), p.get("year"))`
(`get_user_publications.py:75`). -/
def pubKey (p : Pub) : Option String × Option String := (p.title, p.year)

/-- The de-duplication loop (`get_user_publications.py:72-78`): keep the
first entry per key, in order. -/
def dedupPubs (seen : List (Option String × Option String)) :
    List Pub → List Pub
  | [] => []
  | p :: ps =>
    if pubKey p ∈ seen then dedupPubs seen ps
    else p :: dedupPubs (pubKey p :: seen) ps

/-- Python `str(x)` for a possibly missing id value (`str(None)` is the
string `"None"`). -/
def pyStrOptId : Option String → String
  | some s => s
  | none => "None"

/-- The user profile, as far as `get_user_publications` reads it:
`profile.get("activities") or profile.get("publications") or []`, where
a missing or `None` value and an empty list are equally falsy. -/
structure Profile where
  activities : List PAct
  publications : List PAct

/-- `get_user_publications` (`get_user_publications.py:54-80`), with the
two remote reads (`far.get_user`, `far.get_user_data`) supplied as
inputs: profile-derived publications first, then the activity-data
publications of the user, then de-duplication by (title, year). -/
def get_user_publications (profile : Profile) (all_activities : List PAct)
    (user_id : String) : String × List Pub :=
  let profile_activities :=
    if profile.activities.isEmpty then profile.publications
    else profile.activities
  let pubs1 := (profile_activities.filter is_publication).map simplify
  let user_acts := all_activities.filter fun a =>
    pyStrOptId (pGet a "user_id") == user_id
  let pubs2 := (user_acts.filter is_publication).map simplify
  (user_id, dedupPubs [] (pubs1 ++ pubs2))

/-- In a trace with this property, observing a page shorter than the page
size is the final event: nothing — in particular no request for a higher
page — happens afterwards. -/
def shortObsLast (P : Nat) (es : List Event) : Prop :=
  ∀ i p cnt, es.get? i = some (Event.obs p cnt) → cnt < P →
    es.length = i + 1

/-- The publication encounter order of `get_user_publications`:
profile-derived publications first, then activity-data-derived ones
(`get_user_publications.py:59-69`). -/
def encounterPubs (profile : Profile) (all_activities : List PAct)
    (user_id : String) : List Pub :=
  ((if profile.activities.isEmpty then profile.publications
    else profile.activities).filter is_publication).map simplify ++
  ((all_activities.filter fun a =>
    pyStrOptId (pGet a "user_id") == user_id).filter
      is_publication).map simplify

/-! ## Theorems -/

set_option maxRecDepth 40000

/-- SHA-1 reference vector: `sha1("abc")`, validating the embedding of the
hash pipeline against the standard test vector
a9993e364706816aba3e25717850c26c9cd0d89d. -/
theorem sha1_abc_vector :
    sha1 (utf8Encode "abc") =
      [0xa9, 0x99, 0x3e, 0x36, 0x47, 0x06, 0x81, 0x6a, 0xba, 0x3e,
       0x25, 0x71, 0x78, 0x50, 0xc2, 0x6c, 0x9c, 0xd0, 0xd8, 0x9d] := by
  decide

/-- HMAC-SHA1 reference vector (RFC 2202 test case 1): key of twenty
`0x0b` bytes, data `"Hi There"`, digest
b617318655057264e28bc0b6fb378c8ef146be00. -/
theorem hmacSha1_rfc2202_vector :
    hmacSha1 (List.replicate 20 0x0b) (utf8Encode "Hi There") =
      [0xb6, 0x17, 0x31, 0x86, 0x55, 0x05, 0x72, 0x64, 0xe2, 0x8b,
       0xc0, 0xb6, 0xfb, 0x37, 0x8c, 0x8e, 0xf1, 0x46, 0xbe, 0x00] := by
  decide

/-- Claim C1: for every verb, request path+query string, timestamp string
and key pair, `generate_auth_header` returns the pair
`(header, timestamp)` with
`header = "INTF " ++ publicKey ++ ":" ++
 base64(HMAC-SHA1(privateKey, verb ++ "\n\n\n" ++ timestamp ++ "\n" ++ path))`;
in particular the header is a deterministic function of exactly these
inputs (it is a Lean function of them and of nothing else). -/
theorem c1_generate_auth_header (verb path ts publicKey privateKey : String) :
    generate_auth_header publicKey privateKey verb path ts =
      ("INTF " ++ publicKey ++ ":" ++
        base64Encode (hmacSha1 (utf8Encode privateKey)
          (utf8Encode (verb ++ "\n\n\n" ++ ts ++ "\n" ++ path))), ts) :=
  rfl

/-- Claim C9: `extract_users_from_response` is total (it is a Lean
function) and follows the fixed priority order stated by the claim: lists
unchanged; for dicts the value of the first key present among `"data"`,
`"users"`, `"results"` in that order; a non-empty dict with none of those
keys becomes the one-element list holding it; an empty dict and any
non-list non-dict input become the empty list. -/
theorem c9_extract_users (v : PyVal) :
    extract_users_from_response v = extractUsersClaim v := by
  cases v <;>
    simp only [extract_users_from_response, extractUsersClaim, List.find?]
  case vdict kvs =>
    cases h1 : dictHasKey kvs "data" <;>
      cases h2 : dictHasKey kvs "users" <;>
        cases h3 : dictHasKey kvs "results" <;>
          simp [h1, h2, h3]

/-- Claim C4 counterexample: the record set holds an activity with user id
`"7"` and the string field `"title"` whose value contains the target name
`"John Doe"` exactly, yet the search returns a mapping without `"7"`: the
`has_name_fields` quick check (`get_user.py:119-125`) skips any activity
none of whose field keys contains a name-like term, so the matching field
is never examined. -/
theorem c4_counterexample :
    lookupFM (find_user_core ⟨"John", "Doe", true, 3⟩
      [Rec.withActs none [⟨some "7", none, [("title", "John Doe")]⟩]]) "7" =
      none := by
  decide

/-! ### Lookup and persistence lemmas for the found-users mapping -/

/-- `lookupFM` is `find?` composed with the projection to the entry. -/
theorem lookupFM_eq (fm : FoundMap) (uid : String) :
    lookupFM fm uid = (fm.find? fun p => p.1 == uid).map Prod.snd := by
  unfold lookupFM
  cases fm.find? fun p => p.1 == uid <;> rfl

/-- A binding present on the left of an append is still found. -/
theorem lookupFM_append_left {fm : FoundMap} {uid : String} {e : Entry}
    (h : lookupFM fm uid = some e) (l : FoundMap) :
    lookupFM (fm ++ l) uid = some e := by
  rw [lookupFM_eq] at h ⊢
  rw [List.find?_append]
  cases hf : fm.find? fun p => p.1 == uid with
  | none => rw [hf] at h; simp at h
  | some p => rw [hf] at h; simpa [Option.or] using h

/-- Appending a fresh binding makes it found. -/
theorem lookupFM_append_of_none {fm : FoundMap} {uid : String}
    (h : lookupFM fm uid = none) (e : Entry) :
    lookupFM (fm ++ [(uid, e)]) uid = some e := by
  rw [lookupFM_eq] at h ⊢
  rw [List.find?_append]
  cases hf : fm.find? fun p => p.1 == uid with
  | none => simp [Option.or, List.find?]
  | some p => rw [hf] at h; simp at h

/-- `stepActivity` either leaves the mapping unchanged or appends one
fresh binding. -/
theorem stepActivity_eq_or_append (c : SearchCtx) (sn : Option String)
    (fm : FoundMap) (a : Activity) :
    stepActivity c sn fm a = fm ∨
      ∃ uid e, effUserId a = some uid ∧ lookupFM fm uid = none ∧
        stepActivity c sn fm a = fm ++ [(uid, e)] := by
  unfold stepActivity
  cases hu : effUserId a with
  | none => left; rfl
  | some uid =>
    by_cases hl : (lookupFM fm uid).isSome
    · left; simp [hl]
    · have hnone : lookupFM fm uid = none :=
        Option.not_isSome_iff_eq_none.mp hl
      by_cases hn : hasNameFields a
      · cases hm : matchActivity c a with
        | none => left; simp [hl, hn, hm]
        | some mf =>
          right
          exact ⟨uid, mkEntry uid sn mf, rfl, hnone, by simp [hl, hn, hm]⟩
      · left; simp [hl, hn]

/-- Once stored, an entry survives any further activity processing. -/
theorem stepActivity_pres {fm : FoundMap} {uid : String} {e : Entry}
    (h : lookupFM fm uid = some e) (c : SearchCtx) (sn : Option String)
    (a : Activity) : lookupFM (stepActivity c sn fm a) uid = some e := by
  rcases stepActivity_eq_or_append c sn fm a with heq | ⟨uid', e', _, _, heq⟩ <;>
    rw [heq]
  · exact h
  · exact lookupFM_append_left h _

/-- Once stored, an entry survives the rest of a section's activities. -/
theorem searchActs_pres {uid : String} {e : Entry} (c : SearchCtx)
    (sn : Option String) :
    ∀ (acts : List Activity) (fm : FoundMap),
      lookupFM fm uid = some e →
      lookupFM (searchActs c sn fm acts).1 uid = some e := by
  intro acts
  induction acts with
  | nil => intro fm h; exact h
  | cons a rest ih =>
    intro fm h
    simp only [searchActs]
    split
    · exact stepActivity_pres h c sn a
    · exact ih _ (stepActivity_pres h c sn a)

/-- Once stored, an entry survives the rest of the record loop. -/
theorem searchRecs_pres {uid : String} {e : Entry} (c : SearchCtx) :
    ∀ (rs : List Rec) (fm : FoundMap),
      lookupFM fm uid = some e →
      lookupFM (searchRecs c fm rs).1 uid = some e := by
  intro rs
  induction rs with
  | nil => intro fm h; exact h
  | cons r rest ih =>
    intro fm h
    cases r with
    | other => exact ih _ h
    | withActs sn acts =>
      simp only [searchRecs]
      have hp := searchActs_pres c sn acts fm h
      split
      · exact hp
      · split
        · exact hp
        · exact ih _ hp

/-! ### The search with early exit disabled never signals a stop -/

/-- With `early_exit` off, the activity loop never signals a stop. -/
theorem searchActs_snd_false {c : SearchCtx} (h : c.early_exit = false)
    (sn : Option String) :
    ∀ (acts : List Activity) (fm : FoundMap),
      (searchActs c sn fm acts).2 = false := by
  intro acts
  induction acts with
  | nil => intro fm; rfl
  | cons a rest ih =>
    intro fm
    simp only [searchActs]
    rw [if_neg]
    · exact ih _
    · simp [h]

/-- With `early_exit` off, the record loop never signals a stop. -/
theorem searchRecs_snd_false {c : SearchCtx} (h : c.early_exit = false) :
    ∀ (rs : List Rec) (fm : FoundMap), (searchRecs c fm rs).2 = false := by
  intro rs
  induction rs with
  | nil => intro fm; rfl
  | cons r rest ih =>
    intro fm
    cases r with
    | other => exact ih _
    | withActs sn acts =>
      simp only [searchRecs]
      rw [if_neg, if_neg]
      · exact ih _
      · simp [h]
      · rw [searchActs_snd_false h]; simp

/-- With `early_exit` off, the activity loop composes over appends. -/
theorem searchActs_append {c : SearchCtx} (h : c.early_exit = false)
    (sn : Option String) :
    ∀ (xs ys : List Activity) (fm : FoundMap),
      searchActs c sn fm (xs ++ ys) =
        searchActs c sn (searchActs c sn fm xs).1 ys := by
  intro xs
  induction xs with
  | nil => intro ys fm; rfl
  | cons a rest ih =>
    intro ys fm
    simp only [List.cons_append, searchActs]
    rw [if_neg, if_neg]
    · exact ih _ _
    · simp [h]
    · simp [h]

/-- With `early_exit` off, the record loop composes over appends. -/
theorem searchRecs_append {c : SearchCtx} (h : c.early_exit = false) :
    ∀ (xs ys : List Rec) (fm : FoundMap),
      searchRecs c fm (xs ++ ys) =
        searchRecs c (searchRecs c fm xs).1 ys := by
  intro xs
  induction xs with
  | nil => intro ys fm; rfl
  | cons r rest ih =>
    intro ys fm
    cases r with
    | other => exact ih _ _
    | withActs sn acts =>
      simp only [List.cons_append, searchRecs]
      rw [if_neg, if_neg, if_neg, if_neg]
      · exact ih _ _
      · simp [h]
      · rw [searchActs_snd_false h]; simp
      · simp [h]
      · rw [searchActs_snd_false h]; simp

/-- Replacing the entry stored under a present key is observed by
lookup. -/
theorem lookupFM_updateFM {uid : String} :
    ∀ {fm : FoundMap}, (lookupFM fm uid).isSome = true → ∀ (e : Entry),
      lookupFM (updateFM fm uid e) uid = some e := by
  intro fm
  induction fm with
  | nil => intro h; simp [lookupFM, List.find?] at h
  | cons p rest ih =>
    intro h e
    by_cases hp : (p.1 == uid) = true
    · simp only [updateFM, hp, if_true]
      simp [lookupFM, List.find?]
    · simp only [updateFM, hp, if_false]
      have hrest : (lookupFM rest uid).isSome = true := by
        rw [lookupFM_eq] at h ⊢
        simpa [List.find?, hp] using h
      rw [lookupFM_eq] at ih ⊢
      rw [lookupFM_eq] at hrest
      simpa [List.find?, hp] using (by simpa [lookupFM_eq] using ih hrest e)

/-- Claim C7: duplicate-match policy.  Sequential variants
(`get_user.py:113-115`, `paginated_get_user.py:155-156`): an activity for
an already-found user id is skipped outright, so the stored evidence for
that id never changes once present.  Parallel variant
(`parallel_get_user.py:341-350`): a page result for an already-found id
is merged by appending the page's section and matching-field lists to the
existing ones, and a fresh id is inserted. -/
theorem c7_duplicate_matches :
    (∀ (c : SearchCtx) (sn : Option String) (fm : FoundMap) (a : Activity)
       (uid : String), effUserId a = some uid →
       (lookupFM fm uid).isSome = true → stepActivity c sn fm a = fm) ∧
    (∀ (c : SearchCtx) (rs : List Rec) (fm : FoundMap) (uid : String)
       (e : Entry), lookupFM fm uid = some e →
       lookupFM (searchRecs c fm rs).1 uid = some e) ∧
    (∀ (fm : FoundMap) (uid : String) (info e : Entry),
       lookupFM fm uid = some e →
       lookupFM (mergeOne fm (uid, info)) uid =
         some { user_id := e.user_id
                sections_found := e.sections_found ++ info.sections_found
                matching_fields :=
                  e.matching_fields ++ info.matching_fields }) ∧
    (∀ (fm : FoundMap) (uid : String) (info : Entry),
       lookupFM fm uid = none → mergeOne fm (uid, info) = fm ++ [(uid, info)]) := by
  refine ⟨?_, ?_, ?_, ?_⟩
  · intro c sn fm a uid hid hsome
    unfold stepActivity
    rw [hid]
    simp [hsome]
  · intro c rs fm uid e h
    exact searchRecs_pres c rs fm h
  · intro fm uid info e h
    unfold mergeOne
    simp only [h]
    exact lookupFM_updateFM (by simp [h]) _
  · intro fm uid info h
    unfold mergeOne
    simp only [h]

/-- Witness for `c7_duplicate_matches` at concrete inputs: user `"7"` is
already present, a second matching activity for `"7"` changes nothing in
the sequential search, and the parallel merge appends the new evidence. -/
theorem c7_duplicate_matches_witness :
    stepActivity ⟨"John", "Doe", true, 3⟩ none
        [("7", ⟨"7", ["S1"], [("name", "John Doe")]⟩)]
        ⟨some "7", none, [("name", "John Doe")]⟩ =
      [("7", ⟨"7", ["S1"], [("name", "John Doe")]⟩)] ∧
    lookupFM (searchRecs ⟨"John", "Doe", true, 3⟩
        [("7", ⟨"7", ["S1"], [("name", "John Doe")]⟩)]
        [Rec.withActs (some "S2") [⟨some "7", none, [("name", "John Doe")]⟩]]).1
        "7" = some ⟨"7", ["S1"], [("name", "John Doe")]⟩ ∧
    lookupFM (mergeOne [("7", ⟨"7", ["S1"], [("name", "John Doe")]⟩)]
        ("7", ⟨"7", ["S2"], [("author", "Doe, John")]⟩)) "7" =
      some ⟨"7", ["S1", "S2"], [("name", "John Doe"), ("author", "Doe, John")]⟩ ∧
    mergeOne [] ("7", ⟨"7", ["S2"], [("author", "Doe, John")]⟩) =
      [("7", ⟨"7", ["S2"], [("author", "Doe, John")]⟩)] :=
  ⟨c7_duplicate_matches.1 _ _ _ _ "7" (by decide) (by decide),
   c7_duplicate_matches.2.1 _ _ _ "7" ⟨"7", ["S1"], [("name", "John Doe")]⟩
     (by decide),
   c7_duplicate_matches.2.2.1 _ "7" ⟨"7", ["S2"], [("author", "Doe, John")]⟩
     ⟨"7", ["S1"], [("name", "John Doe")]⟩ (by decide),
   c7_duplicate_matches.2.2.2 _ "7" ⟨"7", ["S2"], [("author", "Doe, John")]⟩
     (by decide)⟩

/-! ### Lemmas for the amended C4 -/

/-- The first-pass key terms are among the quick-check key terms. -/
theorem keyNameish4_to5 {k : String} (h : keyNameish4 k = true) :
    keyNameish5 k = true := by
  simp only [keyNameish4, nameTerms4, List.any_eq_true] at h
  simp only [keyNameish5, nameTerms5, List.any_eq_true]
  rcases h with ⟨t, ht, hc⟩
  refine ⟨t, ?_, hc⟩
  simp only [List.mem_cons, List.not_mem_nil, or_false] at ht ⊢
  tauto

/-- A key containing a name-like term is non-empty. -/
theorem keyNameish4_ne_empty {k : String} (h : keyNameish4 k = true) :
    k.isEmpty = false := by
  cases hk : k.isEmpty with
  | false => rfl
  | true =>
    rw [String.isEmpty_iff] at hk
    subst hk
    exact absurd h (by decide)

/-- An activity owning a field with a name-like key passes the
`has_name_fields` quick check. -/
theorem hasNameFields_of_mem {a : Activity} {k v : String}
    (hmem : (k, v) ∈ a.fields) (h : keyNameish4 k = true) :
    hasNameFields a = true := by
  simp only [hasNameFields, List.any_eq_true]
  exact ⟨(k, v), hmem, keyNameish4_to5 h⟩

/-- If some field satisfies the first-pass condition, the first pass
returns a field that does. -/
theorem pass1_of_mem {c : SearchCtx} {fields : List (String × String)}
    {k v : String} (hmem : (k, v) ∈ fields)
    (hp : pass1Field c k v = true) :
    ∃ kv, pass1 c fields = some kv ∧ pass1Field c kv.1 kv.2 = true := by
  cases hf : pass1 c fields with
  | none =>
    rw [pass1, List.find?_eq_none] at hf
    exact absurd hp (by simpa using hf (k, v) hmem)
  | some kv =>
    refine ⟨kv, rfl, ?_⟩
    have := List.find?_some hf
    simpa using this

/-- Claim C4 amended: the claim as stated fails on the
`has_name_fields` gate (see `c4_counterexample`), and on early exit
stopping before the record, and on a previously stored duplicate of the
user id.  With those forced hypotheses added — early exit disabled, the
matching field under a name-like key and longer than 2 characters, and no
earlier activity having stored the same user id — the mapping does
include the user id of the activity whose field value contains
`"First Last"` (case-insensitively), with at least one matching
field/value entry. -/
theorem c4_amended (first last : String) (maxU : Nat) (rs₁ rs₂ : List Rec)
    (sn : Option String) (as₁ as₂ : List Activity) (a : Activity)
    (uid k v : String)
    (hid : effUserId a = some uid)
    (hmem : (k, v) ∈ a.fields)
    (hkey : keyNameish4 k = true)
    (hval : strContains (strLower v)
      (strLower first ++ " " ++ strLower last) = true)
    (hlen : 2 < v.length)
    (hpre : lookupFM (searchActs ⟨first, last, false, maxU⟩ sn
      (searchRecs ⟨first, last, false, maxU⟩ [] rs₁).1 as₁).1 uid = none) :
    ∃ e, lookupFM (find_user_core ⟨first, last, false, maxU⟩
        (rs₁ ++ Rec.withActs sn (as₁ ++ a :: as₂) :: rs₂)) uid = some e ∧
      e.matching_fields ≠ [] := by
  set c : SearchCtx := ⟨first, last, false, maxU⟩ with hc
  have hef : c.early_exit = false := rfl
  set fm1 : FoundMap := (searchRecs c [] rs₁).1 with hfm1
  set fmPre : FoundMap := (searchActs c sn fm1 as₁).1 with hfmPre
  have hp1 : pass1Field c k v = true := by
    simp only [pass1Field, Bool.and_eq_true, Bool.or_eq_true,
      decide_eq_true_eq]
    refine ⟨⟨hlen, hkey⟩, Or.inl ?_⟩
    simp only [List.any_eq_true, nameVariations]
    exact ⟨strLower first ++ " " ++ strLower last,
      List.mem_cons_self _ _, hval⟩
  obtain ⟨kv, hfind, hkv⟩ := pass1_of_mem hmem hp1
  have hkne : kv.1.isEmpty = false := by
    apply keyNameish4_ne_empty
    simp only [pass1Field, Bool.and_eq_true] at hkv
    exact hkv.1.2
  have hmatch : matchActivity c a = some (some kv) := by
    unfold matchActivity
    rw [hfind]
  have hhn : hasNameFields a = true := hasNameFields_of_mem hmem hkey
  set e : Entry := mkEntry uid sn (some kv) with he
  have hestep : stepActivity c sn fmPre a = fmPre ++ [(uid, e)] := by
    unfold stepActivity
    rw [hid]
    simp [hpre, hhn, hmatch]
  have hlook : lookupFM (stepActivity c sn fmPre a) uid = some e := by
    rw [hestep]
    exact lookupFM_append_of_none hpre e
  refine ⟨e, ?_, ?_⟩
  · unfold find_user_core
    rw [searchRecs_append hef]
    simp only [searchRecs, ← hfm1]
    rw [if_neg, if_neg]
    · apply searchRecs_pres
      rw [searchActs_append hef]
      simp only [searchActs, ← hfmPre]
      rw [if_neg]
      · exact searchActs_pres c sn as₂ _ hlook
      · simp [hc]
    · simp [hc]
    · rw [searchActs_snd_false hef]
      simp
  · rw [he]
    simp [mkEntry, hkne]

/-- Witness for `c4_amended`: a single-record set holding one activity of
user `"7"` with the field `author_name = "John Doe"`; the amended search
(early exit off) finds `"7"` with the matching-field entry. -/
theorem c4_amended_witness :
    ∃ e, lookupFM (find_user_core ⟨"John", "Doe", false, 3⟩
        ([] ++ Rec.withActs none
          ([] ++ ⟨some "7", none, [("author_name", "John Doe")]⟩ :: []) :: []))
        "7" = some e ∧ e.matching_fields ≠ [] :=
  c4_amended "John" "Doe" 3 [] [] none [] []
    ⟨some "7", none, [("author_name", "John Doe")]⟩ "7" "author_name"
    "John Doe" (by decide) (by decide) (by decide) (by decide) (by decide)
    (by decide)

/-! ### The sequential paginated loop: page lengths, fuel, page counts -/

/-- The length of a served page. -/
theorem pageSlice_length (data : List Rec) (P page : Nat) :
    (pageSlice data P page).length =
      min P (data.length - (page - 1) * P) := by
  simp [pageSlice]

/-- A non-empty, non-short page is exactly full and lies inside the data:
the loop recurses only while `page * P ≤ data.length` (and `0 < P`). -/
theorem pageSlice_full {data : List Rec} {P page : Nat}
    (hne : (pageSlice data P page).isEmpty = false)
    (hns : ¬ (pageSlice data P page).length < P) :
    0 < P ∧ (page - 1) * P + P ≤ data.length ∧ page ≤ data.length := by
  have hlen := pageSlice_length data P page
  have hpos : 0 < (pageSlice data P page).length := by
    cases hq : pageSlice data P page with
    | nil => rw [hq] at hne; simp at hne
    | cons x xs => simp [hq]
  have hle : (pageSlice data P page).length ≤ P := by
    rw [hlen]; exact Nat.min_le_left _ _
  have hP : 0 < P := by omega
  have hmin : min P (data.length - (page - 1) * P) = P := by
    rw [← hlen]; omega
  have h1 : P ≤ data.length - (page - 1) * P := min_eq_left_iff.mp hmin
  have hAN : (page - 1) * P ≤ data.length := by
    by_contra h
    push_neg at h
    rw [Nat.sub_eq_zero_of_le (Nat.le_of_lt h)] at h1
    omega
  have hfull : (page - 1) * P + P ≤ data.length := by
    have := (Nat.le_sub_iff_add_le hAN).mp h1
    omega
  refine ⟨hP, hfull, ?_⟩
  cases page with
  | zero => exact Nat.zero_le _
  | succ q =>
    have hq1 : q + 1 ≤ (q + 1) * P := Nat.le_mul_of_pos_right _ hP
    have hq2 : (q + 1) * P = q * P + P := Nat.succ_mul q P
    simp only [Nat.succ_sub_one] at hfull
    omega

/-- The sequential loop is fuel-independent once the fuel covers the
backing data: this is the termination of the pagination loop on a finite
source. -/
theorem seqRunF_fuel_eq (c : SearchCtx) (data : List Rec) (P : Nat) :
    ∀ (f g page : Nat) (fm : FoundMap), page ≤ data.length + 1 →
      data.length + 2 - page ≤ f → data.length + 2 - page ≤ g →
      seqRunF c (listSrc data P) P f page fm =
        seqRunF c (listSrc data P) P g page fm := by
  intro f
  induction f with
  | zero => intro g page fm hp hf hg; omega
  | succ f ih =>
    intro g page fm hp hf hg
    cases g with
    | zero => omega
    | succ g =>
      simp only [seqRunF, listSrc]
      by_cases hE : (pageSlice data P page).isEmpty
      · simp [hE]
      · have hE' : (pageSlice data P page).isEmpty = false := by
          simpa using hE
        simp only [hE', Bool.false_eq_true, if_false]
        by_cases hS : (searchRecs c fm (pageSlice data P page)).2
        · simp [hS]
        · have hS' : (searchRecs c fm (pageSlice data P page)).2 = false := by
            simpa using hS
          simp only [hS', Bool.false_eq_true, if_false]
          by_cases hshort : (pageSlice data P page).length < P
          · simp [hshort]
          · simp only [hshort, if_false]
            by_cases h54 : 1 < page ∧ (pageSlice data P page).length = P ∧
                54 ≤ (page - 1) * P
            · simp [h54]
            · simp only [h54, if_false]
              obtain ⟨hP, hfull, hpage⟩ := pageSlice_full hE' hshort
              rw [ih g (page + 1) _ (by omega) (by omega) (by omega)]

/-- Request counting distributes over trace concatenation. -/
theorem countReqs_append (a b : List Event) :
    countReqs (a ++ b) = countReqs a + countReqs b := by
  simp [countReqs, List.filter_append]

/-- One iteration contributes exactly one request. -/
theorem countReqs_pair (p cnt : Nat) :
    countReqs [Event.req p, Event.obs p cnt] = 1 := rfl

/-- The sequential loop fetches at most `data.length / P + 1` pages
(stated from an arbitrary starting page for the induction). -/
theorem seqRunF_count_le (c : SearchCtx) (data : List Rec) (P : Nat) :
    ∀ (f page : Nat) (fm : FoundMap),
      countReqs (seqRunF c (listSrc data P) P f page fm).1 ≤
        max 1 (data.length / P + 2 - page) := by
  intro f
  induction f with
  | zero =>
    intro page fm
    simp only [seqRunF]
    have : countReqs [] = 0 := rfl
    omega
  | succ f ih =>
    intro page fm
    simp only [seqRunF, listSrc]
    by_cases hE : (pageSlice data P page).isEmpty
    · simp only [hE, if_true, countReqs_pair]
      omega
    · have hE' : (pageSlice data P page).isEmpty = false := by simpa using hE
      simp only [hE', Bool.false_eq_true, if_false]
      by_cases hS : (searchRecs c fm (pageSlice data P page)).2
      · simp only [hS, if_true, countReqs_pair]
        omega
      · have hS' : (searchRecs c fm (pageSlice data P page)).2 = false := by
          simpa using hS
        simp only [hS', Bool.false_eq_true, if_false]
        by_cases hshort : (pageSlice data P page).length < P
        · simp only [hshort, if_true, countReqs_pair]
          omega
        · simp only [hshort, if_false]
          by_cases h54 : 1 < page ∧ (pageSlice data P page).length = P ∧
              54 ≤ (page - 1) * P
          · rw [if_pos h54, countReqs_pair]
            omega
          · rw [if_neg h54]
            obtain ⟨hP, hfull, _⟩ := pageSlice_full hE' hshort
            have hd : page ≤ data.length / P := by
              cases page with
              | zero => exact Nat.zero_le _
              | succ q =>
                rw [Nat.le_div_iff_mul_le hP]
                have hsm : (q + 1) * P = q * P + P := Nat.succ_mul q P
                simp only [Nat.succ_sub_one] at hfull
                omega
            have hrec := ih (page + 1) (searchRecs c fm (pageSlice data P page)).1
            rw [countReqs_append, countReqs_pair]
            omega

/-- Bridge for Nat arithmetic: `(page - 1) * P + P = page * P` for a
positive page number. -/
theorem pred_mul_add {page : Nat} (P : Nat) (h : 1 ≤ page) :
    (page - 1) * P + P = page * P := by
  cases page with
  | zero => omega
  | succ q => simp [Nat.succ_sub_one, Nat.succ_mul]

/-- With early exit off, a page size that does not divide the data length
and a ceiling page count clear of the hard-coded offset-54 cutoff, the
sequential loop fetches exactly `ceil(N / P)` pages (stated from an
arbitrary current page for the induction). -/
theorem seqRunF_count_exact (c : SearchCtx) (data : List Rec) (P : Nat)
    (hef : c.early_exit = false) (hP : 0 < P) (hN : 0 < data.length)
    (hnd : ¬ P ∣ data.length)
    (h54 : ((data.length + P - 1) / P - 2) * P < 54) :
    ∀ (f page : Nat) (fm : FoundMap), 1 ≤ page →
      page ≤ (data.length + P - 1) / P →
      (data.length + P - 1) / P + 1 ≤ f + page →
      countReqs (seqRunF c (listSrc data P) P f page fm).1 =
        (data.length + P - 1) / P + 1 - page := by
  have hKP1 : ((data.length + P - 1) / P) * P ≤ data.length + P - 1 :=
    Nat.div_mul_le_self _ _
  have hKP2 : data.length + P - 1 <
      (data.length + P - 1) / P * P + P := Nat.lt_div_mul_add hP
  have hK1 : 1 ≤ (data.length + P - 1) / P := by
    rw [Nat.le_div_iff_mul_le hP]
    omega
  have hsubK : ((data.length + P - 1) / P - 1) * P + P =
      (data.length + P - 1) / P * P := pred_mul_add P hK1
  have hNle : data.length ≤ (data.length + P - 1) / P * P := by omega
  have hNne : data.length ≠ (data.length + P - 1) / P * P := by
    intro h
    exact hnd ⟨_, by rw [h, Nat.mul_comm]⟩
  have hNlt : data.length < (data.length + P - 1) / P * P := by omega
  have hKm1 : ((data.length + P - 1) / P - 1) * P < data.length := by omega
  intro f
  induction f with
  | zero => intro page fm h1 h2 h3; omega
  | succ f ih =>
    intro page fm h1 h2 h3
    simp only [seqRunF, listSrc]
    have hlen := pageSlice_length data P page
    rcases Nat.lt_or_ge page ((data.length + P - 1) / P) with hlt | hge
    · -- a full middle page
      have hmul : page * P ≤ ((data.length + P - 1) / P - 1) * P :=
        Nat.mul_le_mul_right P (by omega)
      have hbr : (page - 1) * P + P = page * P := pred_mul_add P h1
      have hLP : (pageSlice data P page).length = P := by omega
      have hE' : (pageSlice data P page).isEmpty = false := by
        cases hq : pageSlice data P page with
        | nil => rw [hq] at hLP; simp at hLP; omega
        | cons x xs => simp [hq]
      rw [if_neg (by simp [hE'])]
      rw [if_neg (by rw [searchRecs_snd_false hef]; simp)]
      rw [if_neg (by omega)]
      rw [if_neg ?hno54]
      case hno54 =>
        rintro ⟨hp1, _, hp3⟩
        have hm2 : (page - 1) * P ≤ ((data.length + P - 1) / P - 2) * P :=
          Nat.mul_le_mul_right P (by omega)
        omega
      rw [countReqs_append, countReqs_pair]
      rw [ih (page + 1) _ (by omega) (by omega) (by omega)]
      omega
    · -- the short last page
      have hge' : page = (data.length + P - 1) / P := by omega
      have hAT : (page - 1) * P = ((data.length + P - 1) / P - 1) * P := by
        rw [hge']
      have hLpos : 0 < (pageSlice data P page).length := by omega
      have hLlt : (pageSlice data P page).length < P := by omega
      have hE' : (pageSlice data P page).isEmpty = false := by
        cases hq : pageSlice data P page with
        | nil => rw [hq] at hLpos; simp at hLpos
        | cons x xs => simp [hq]
      rw [if_neg (by simp [hE'])]
      rw [if_neg (by rw [searchRecs_snd_false hef]; simp)]
      rw [if_pos hLlt, countReqs_pair]
      omega

/-- Claim C2 counterexample: a backing source of 50 records with page
size 25 (which divides 50): `ceil(50 / 25) = 2`, but the sequential loop
fetches 3 pages — after two full pages it must fetch a third, empty, page
to observe the end of the data (`paginated_get_user.py:293-295`). -/
theorem c2_counterexample :
    seqPages ⟨"John", "Doe", false, 3⟩ (List.replicate 50 Rec.other) 25 51 = 3 ∧
    (50 + 25 - 1) / 25 = 2 ∧ (3 : Nat) ≠ 2 := by
  decide

/-- Claim C2 amended: the sequential paginated loop always terminates on
a finite backing source — its result is fuel-independent past
`data.length + 1` iterations and it fetches at most `N / P + 1` pages —
and the number of pages fetched equals `ceil(N / P)` under the conditions
the code forces: early exit off, `P > 0`, `N > 0`, `P` not dividing `N`
(else one extra empty page is fetched, see `c2_counterexample`), and
`(ceil(N / P) - 2) * P < 54` (else the hard-coded offset-54 cutoff of
`paginated_get_user.py:321-325` stops the loop early). -/
theorem c2_amended_pagination :
    (∀ (c : SearchCtx) (data : List Rec) (P f : Nat),
       data.length + 1 ≤ f →
       seqRun c data P f = seqRun c data P (data.length + 1)) ∧
    (∀ (c : SearchCtx) (data : List Rec) (P f : Nat),
       seqPages c data P f ≤ data.length / P + 1) ∧
    (∀ (c : SearchCtx) (data : List Rec) (P f : Nat),
       c.early_exit = false → 0 < P → 0 < data.length →
       ¬ P ∣ data.length →
       ((data.length + P - 1) / P - 2) * P < 54 →
       data.length + 1 ≤ f →
       seqPages c data P f = (data.length + P - 1) / P) := by
  refine ⟨?_, ?_, ?_⟩
  · intro c data P f hf
    exact seqRunF_fuel_eq c data P f (data.length + 1) 1 []
      (by omega) (by omega) (by omega)
  · intro c data P f
    have h := seqRunF_count_le c data P f 1 []
    unfold seqPages seqRun
    generalize hx : data.length / P = x at h ⊢
    omega
  · intro c data P f hef hP hN hnd h54
    intro hf
    have hK1 : 1 ≤ (data.length + P - 1) / P := by
      rw [Nat.le_div_iff_mul_le hP]
      omega
    have hKN : (data.length + P - 1) / P ≤ data.length := by
      have h2 : data.length ≤ data.length * P := Nat.le_mul_of_pos_right _ hP
      have h3 : data.length * P = P * data.length := Nat.mul_comm _ _
      have h1 : data.length + P - 1 ≤ P * data.length + (P - 1) := by omega
      calc (data.length + P - 1) / P
          ≤ (P * data.length + (P - 1)) / P := Nat.div_le_div_right h1
        _ = data.length + (P - 1) / P := Nat.mul_add_div hP _ _
        _ = data.length := by rw [Nat.div_eq_of_lt (by omega)]; omega
    have h := seqRunF_count_exact c data P hef hP hN hnd h54 f 1 []
      (le_refl 1) hK1 (by omega)
    unfold seqPages seqRun
    generalize hx : (data.length + P - 1) / P = x at h ⊢
    omega

/-- Witness for `c2_amended_pagination`: 40 records, page size 25 — the
loop fetches exactly `ceil(40 / 25) = 2` pages, is fuel-independent, and
respects the bound. -/
theorem c2_amended_pagination_witness :
    seqRun ⟨"John", "Doe", false, 3⟩ (List.replicate 40 Rec.other) 25 60 =
      seqRun ⟨"John", "Doe", false, 3⟩ (List.replicate 40 Rec.other) 25 41 ∧
    seqPages ⟨"John", "Doe", false, 3⟩ (List.replicate 40 Rec.other) 25 60 ≤
      40 / 25 + 1 ∧
    seqPages ⟨"John", "Doe", false, 3⟩ (List.replicate 40 Rec.other) 25 60 =
      (40 + 25 - 1) / 25 :=
  ⟨by
    have h := c2_amended_pagination.1 ⟨"John", "Doe", false, 3⟩
      (List.replicate 40 Rec.other) 25 60 (by decide)
    simpa using h,
   by
    have h := c2_amended_pagination.2.1 ⟨"John", "Doe", false, 3⟩
      (List.replicate 40 Rec.other) 25 60
    simpa using h,
   by
    have h := c2_amended_pagination.2.2 ⟨"John", "Doe", false, 3⟩
      (List.replicate 40 Rec.other) 25 60 rfl (by decide) (by decide)
      (by decide) (by decide) (by decide)
    simpa using h⟩

/-! ### A short page observation ends the trace (C3) -/

/-- The empty trace trivially has the property. -/
theorem shortObsLast_nil (P : Nat) : shortObsLast P [] := by
  intro i p c h hc
  simp [List.get?] at h

/-- A lone request has the property. -/
theorem shortObsLast_one (P page : Nat) :
    shortObsLast P [Event.req page] := by
  intro i p c h hc
  match i, h with
  | 0, h => simp [List.get?] at h
  | n + 1, h => simp [List.get?] at h

/-- A request followed by a final observation has the property. -/
theorem shortObsLast_two (P page cnt : Nat) :
    shortObsLast P [Event.req page, Event.obs page cnt] := by
  intro i p c h hc
  match i, h with
  | 0, h => simp [List.get?] at h
  | 1, h => rfl
  | n + 2, h => simp [List.get?] at h

/-- Prepending a request preserves the property. -/
theorem shortObsLast_cons_req {P q : Nat} {es : List Event}
    (h : shortObsLast P es) : shortObsLast P (Event.req q :: es) := by
  intro i p c hi hc
  match i, hi with
  | 0, hi => simp [List.get?] at hi
  | n + 1, hi =>
    have := h n p c (by simpa [List.get?] using hi) hc
    simp only [List.length_cons]
    omega

/-- Prepending a full (not short) observation preserves the property. -/
theorem shortObsLast_cons_obs {P q L : Nat} {es : List Event}
    (hL : ¬ L < P) (h : shortObsLast P es) :
    shortObsLast P (Event.obs q L :: es) := by
  intro i p c hi hc
  match i, hi with
  | 0, hi =>
    simp [List.get?] at hi
    omega
  | n + 1, hi =>
    have := h n p c (by simpa [List.get?] using hi) hc
    simp only [List.length_cons]
    omega

/-- A final short observation has the property. -/
theorem shortObsLast_obs_short (P q L : Nat) :
    shortObsLast P [Event.obs q L] := by
  intro i p c h hc
  match i, h with
  | 0, h => rfl
  | n + 1, h => simp [List.get?] at h

/-- Prepending any run of requests and full observations preserves the
property. -/
theorem shortObsLast_append_of_noShort {P : Nat} {es tail : List Event}
    (hes : ∀ e ∈ es, ∀ q c, e = Event.obs q c → ¬ c < P)
    (h : shortObsLast P tail) : shortObsLast P (es ++ tail) := by
  induction es with
  | nil => simpa using h
  | cons e rest ih =>
    have hrest : ∀ e ∈ rest, ∀ q c, e = Event.obs q c → ¬ c < P :=
      fun e he => hes e (List.mem_cons_of_mem _ he)
    rw [List.cons_append]
    cases e with
    | req q => exact shortObsLast_cons_req (ih hrest)
    | obs q c =>
      exact shortObsLast_cons_obs (hes _ (List.mem_cons_self _ _) q c rfl)
        (ih hrest)

/-- The sequential loop's trace: a short page observation is its final
event (any page source, any fuel). -/
theorem seqRunF_shortObsLast (c : SearchCtx)
    (src : Nat → Option (List Rec)) (P : Nat) :
    ∀ (f page : Nat) (fm : FoundMap),
      shortObsLast P (seqRunF c src P f page fm).1 := by
  intro f
  induction f with
  | zero => intro page fm; exact shortObsLast_nil P
  | succ f ih =>
    intro page fm
    simp only [seqRunF]
    cases hsrc : src page with
    | none => exact shortObsLast_one P page
    | some pd =>
      by_cases hE : pd.isEmpty
      · simp only [hE, if_true]
        exact shortObsLast_two _ _ _
      · have hE' : pd.isEmpty = false := by simpa using hE
        simp only [hE', Bool.false_eq_true, if_false]
        by_cases hS : (searchRecs c fm pd).2
        · simp only [hS, if_true]
          exact shortObsLast_two _ _ _
        · have hS' : (searchRecs c fm pd).2 = false := by simpa using hS
          simp only [hS', Bool.false_eq_true, if_false]
          by_cases hshort : pd.length < P
          · rw [if_pos hshort]
            exact shortObsLast_two _ _ _
          · rw [if_neg hshort]
            by_cases h54 : 1 < page ∧ pd.length = P ∧ 54 ≤ (page - 1) * P
            · rw [if_pos h54]
              exact shortObsLast_two _ _ _
            · rw [if_neg h54]
              have : [Event.req page, Event.obs page pd.length] ++
                  (seqRunF c src P f (page + 1) (searchRecs c fm pd).1).1 =
                  Event.req page :: Event.obs page pd.length ::
                    (seqRunF c src P f (page + 1) (searchRecs c fm pd).1).1 :=
                rfl
              rw [this]
              exact shortObsLast_cons_req
                (shortObsLast_cons_obs hshort (ih _ _))

/-- The observation run of one concurrent window has the property. -/
theorem concBatchObs_shortObsLast (P : Nat) :
    ∀ pcs : List (Nat × Nat), shortObsLast P (concBatchObs P pcs).1 := by
  intro pcs
  induction pcs with
  | nil => exact shortObsLast_nil P
  | cons pc rest ih =>
    obtain ⟨p, cnt⟩ := pc
    simp only [concBatchObs]
    by_cases hc : cnt < P
    · rw [if_pos hc]
      exact shortObsLast_obs_short _ _ _
    · rw [if_neg hc]
      exact shortObsLast_cons_obs hc ih

/-- If a window finished without the stop flag, none of its observations
was short. -/
theorem concBatchObs_not_stopped (P : Nat) :
    ∀ pcs : List (Nat × Nat), (concBatchObs P pcs).2 = false →
      ∀ e ∈ (concBatchObs P pcs).1, ∀ q c, e = Event.obs q c → ¬ c < P := by
  intro pcs
  induction pcs with
  | nil => intro _ e he; simp [concBatchObs] at he
  | cons pc rest ih =>
    obtain ⟨p, cnt⟩ := pc
    simp only [concBatchObs]
    by_cases hc : cnt < P
    · rw [if_pos hc]
      intro h
      simp at h
    · rw [if_neg hc]
      intro h e he q c heq
      rcases List.mem_cons.mp he with rfl | hmem
      · cases heq
        exact hc
      · exact ih (by simpa using h) e hmem q c heq

/-- The concurrent window loop's trace has the property. -/
theorem concTraceAux_shortObsLast (data : List Nat) (P : Nat) :
    ∀ (f page : Nat), shortObsLast P (concTraceAux data P f page) := by
  intro f
  induction f with
  | zero => intro page; exact shortObsLast_nil P
  | succ f ih =>
    intro page
    simp only [concTraceAux]
    have hreqsNo : ∀ e ∈ (List.range 5).map fun i => Event.req (page + i),
        ∀ q c, e = Event.obs q c → ¬ c < P := by
      intro e he q c heq
      rcases List.mem_map.mp he with ⟨i, _, rfl⟩
      simp at heq
    by_cases hst : (concBatchObs P ((List.range 5).map fun i =>
        (page + i, (pageSliceU data P (page + i)).length))).2
    · rw [if_pos hst]
      exact shortObsLast_append_of_noShort hreqsNo
        (concBatchObs_shortObsLast P _)
    · have hst' : (concBatchObs P ((List.range 5).map fun i =>
          (page + i, (pageSliceU data P (page + i)).length))).2 = false := by
        simpa using hst
      simp only [hst', Bool.false_eq_true, if_false]
      by_cases hpwd : ((((List.range 5).map fun i =>
          (page + i, (pageSliceU data P (page + i)).length)).filter
            fun pc => 0 < pc.2).length = 0)
      · rw [if_pos hpwd]
        exact shortObsLast_append_of_noShort hreqsNo
          (concBatchObs_shortObsLast P _)
      · rw [if_neg hpwd]
        rw [List.append_assoc]
        refine shortObsLast_append_of_noShort hreqsNo ?_
        exact shortObsLast_append_of_noShort
          (concBatchObs_not_stopped P _ hst') (ih _)

/-- `fetch_users_concurrent`'s trace: a short page observation is its
final event. -/
theorem concTrace_shortObsLast (data : List Nat) (P f : Nat) :
    shortObsLast P (concTrace data P f) := by
  simp only [concTrace]
  by_cases h0 : (pageSliceU data P 1).length = 0
  · rw [if_pos h0]
    exact shortObsLast_two _ _ _
  · rw [if_neg h0]
    by_cases hs : (pageSliceU data P 1).length < P
    · rw [if_pos hs]
      exact shortObsLast_two _ _ _
    · rw [if_neg hs]
      have heq : [Event.req 1, Event.obs 1 (pageSliceU data P 1).length] ++
          concTraceAux data P f 2 =
          Event.req 1 :: Event.obs 1 (pageSliceU data P 1).length ::
            concTraceAux data P f 2 := rfl
      rw [heq]
      exact shortObsLast_cons_req
        (shortObsLast_cons_obs hs (concTraceAux_shortObsLast data P f 2))

/-- Claim C3 counterexample: in the process-parallel variant
(`find_user_parallel`, one worker, page size 25, a backing set of one
section and no name matches), the trace observes the short page 1 (one
record, fewer than 25) at position 2 and nevertheless requests page 3 at
position 4: pagination does not end at a short page — the variant only
stops on three consecutive empty windows or past its page estimate. -/
theorem c3_counterexample :
    (find_user_parallel_trace ⟨"John", "Doe", true, 3⟩ [Rec.other]
        25 1 20).get? 2 = some (Event.obs 1 1) ∧
    (1 : Nat) < 25 ∧
    (find_user_parallel_trace ⟨"John", "Doe", true, 3⟩ [Rec.other]
        25 1 20).get? 4 = some (Event.req 3) ∧
    (2 : Nat) < 4 ∧ (1 : Nat) < 3 := by
  decide

/-- Claim C3 amended: in the sequential variant and in the
concurrent-batched variant, once a page returns fewer records than the
requested page size, pagination ends — the short-page observation is the
final event of the trace, so no page is requested afterwards (requests of
the same concurrent window were issued before the observation, not
after).  The process-parallel variant violates the claim
(`c3_counterexample`). -/
theorem c3_amended_short_page_ends :
    (∀ (c : SearchCtx) (src : Nat → Option (List Rec)) (P f page : Nat)
       (fm : FoundMap) (i p cnt : Nat),
       (seqRunF c src P f page fm).1.get? i = some (Event.obs p cnt) →
       cnt < P →
       (seqRunF c src P f page fm).1.length = i + 1) ∧
    (∀ (data : List Nat) (P f i p cnt : Nat),
       (concTrace data P f).get? i = some (Event.obs p cnt) → cnt < P →
       (concTrace data P f).length = i + 1) :=
  ⟨fun c src P f page fm => seqRunF_shortObsLast c src P f page fm,
   fun data P f => concTrace_shortObsLast data P f⟩

/-- Witness for `c3_amended_short_page_ends`: one-record sources with
page size 25; the short observation at index 1 is the final event of the
two-event traces. -/
theorem c3_amended_short_page_ends_witness :
    (seqRunF ⟨"John", "Doe", false, 3⟩ (listSrc [Rec.other] 25)
        25 5 1 []).1.length = 1 + 1 ∧
    (concTrace [0] 25 5).length = 1 + 1 :=
  ⟨c3_amended_short_page_ends.1 ⟨"John", "Doe", false, 3⟩
      (listSrc [Rec.other] 25) 25 5 1 [] 1 1 1 (by decide) (by decide),
   c3_amended_short_page_ends.2 [0] 25 5 1 1 1 (by decide) (by decide)⟩

/-! ### Early exit with `max_users = 1` (C8) -/

/-- With early exit on and `max_users = 1`, an activity loop that did not
signal a stop stored nothing: any new entry triggers the in-loop check at
once. -/
theorem searchActs_unchanged_of_no_stop {c : SearchCtx}
    (he : c.early_exit = true) (hm : c.max_users = 1) (sn : Option String) :
    ∀ (acts : List Activity) (fm : FoundMap),
      (searchActs c sn fm acts).2 = false → (searchActs c sn fm acts).1 = fm := by
  intro acts
  induction acts with
  | nil => intro fm _; rfl
  | cons a rest ih =>
    intro fm h
    rcases stepActivity_eq_or_append c sn fm a with heq | ⟨uid, e, _, _, heq⟩
    · simp only [searchActs, heq] at h ⊢
      rw [if_neg (by omega)] at h ⊢
      exact ih fm h
    · exfalso
      simp only [searchActs, heq] at h
      rw [if_pos ?hcond] at h
      · simp at h
      case hcond =>
        refine ⟨?_, he, ?_⟩ <;> simp [hm]

/-- With early exit on and `max_users = 1`, a record loop that did not
signal a stop stored nothing. -/
theorem searchRecs_unchanged_of_no_stop {c : SearchCtx}
    (he : c.early_exit = true) (hm : c.max_users = 1) :
    ∀ (rs : List Rec) (fm : FoundMap),
      (searchRecs c fm rs).2 = false → (searchRecs c fm rs).1 = fm := by
  intro rs
  induction rs with
  | nil => intro fm _; rfl
  | cons r rest ih =>
    intro fm h
    cases r with
    | other => exact ih fm h
    | withActs sn acts =>
      simp only [searchRecs] at h ⊢
      by_cases hs : (searchActs c sn fm acts).2
      · rw [if_pos hs] at h
        simp at h
      · have hs' : (searchActs c sn fm acts).2 = false := by simpa using hs
        rw [if_neg (by simp [hs'])] at h ⊢
        have hunch := searchActs_unchanged_of_no_stop he hm sn acts fm hs'
        by_cases hsec : c.early_exit = true ∧ c.max_users ≤
            (searchActs c sn fm acts).1.length
        · rw [if_pos hsec] at h
          simp at h
        · rw [if_neg hsec] at h ⊢
          rw [hunch] at h ⊢
          exact ih fm h

/-- Requests beyond page `p` distribute over trace concatenation. -/
theorem reqsAbove_append (p : Nat) (a b : List Event) :
    reqsAbove p (a ++ b) = reqsAbove p a + reqsAbove p b := by
  simp [reqsAbove, List.filter_append]

/-- One loop iteration at `page ≤ p` requests nothing beyond `p`. -/
theorem reqsAbove_pair {p page : Nat} (cnt : Nat) (h : page ≤ p) :
    reqsAbove p [Event.req page, Event.obs page cnt] = 0 := by
  simp [reqsAbove, List.filter, Nat.not_lt.mpr h]

/-- Core of C8: with early exit on and `max_users = 1`, if page `p`'s
batch (searched from the empty mapping) yields a match and no earlier
page's does, then the loop — started at any page up to `p` with nothing
found — never requests a page beyond `p`. -/
theorem seqRunF_no_reqs_above (data : List Rec) (P : Nat)
    (first last : String) (p : Nat)
    (hmatch : (searchRecs ⟨first, last, true, 1⟩ []
      (pageSlice data P p)).1 ≠ [])
    (_hbefore : ∀ q, 1 ≤ q → q < p →
      (searchRecs ⟨first, last, true, 1⟩ [] (pageSlice data P q)).1 = []) :
    ∀ (f page : Nat), 1 ≤ page → page ≤ p →
      reqsAbove p (seqRunF ⟨first, last, true, 1⟩ (listSrc data P) P
        f page []).1 = 0 := by
  set c : SearchCtx := ⟨first, last, true, 1⟩ with hc
  have he : c.early_exit = true := rfl
  have hm : c.max_users = 1 := rfl
  intro f
  induction f with
  | zero => intro page h1 h2; simp [seqRunF, reqsAbove]
  | succ f ih =>
    intro page h1 h2
    simp only [seqRunF, listSrc]
    by_cases hE : (pageSlice data P page).isEmpty
    · simp only [hE, if_true]
      exact reqsAbove_pair _ h2
    · have hE' : (pageSlice data P page).isEmpty = false := by simpa using hE
      simp only [hE', Bool.false_eq_true, if_false]
      by_cases hS : (searchRecs c [] (pageSlice data P page)).2
      · simp only [hS, if_true]
        exact reqsAbove_pair _ h2
      · have hS' : (searchRecs c [] (pageSlice data P page)).2 = false := by
          simpa using hS
        simp only [hS', Bool.false_eq_true, if_false]
        by_cases hshort : (pageSlice data P page).length < P
        · rw [if_pos hshort]
          exact reqsAbove_pair _ h2
        · rw [if_neg hshort]
          by_cases h54 : 1 < page ∧ (pageSlice data P page).length = P ∧
              54 ≤ (page - 1) * P
          · rw [if_pos h54]
            exact reqsAbove_pair _ h2
          · rw [if_neg h54]
            have hunch := searchRecs_unchanged_of_no_stop he hm
              (pageSlice data P page) [] hS'
            have hlt : page < p := by
              rcases Nat.lt_or_ge page p with h | h
              · exact h
              · exfalso
                have : page = p := by omega
                rw [this] at hunch
                exact hmatch hunch
            rw [reqsAbove_append, reqsAbove_pair _ h2, hunch]
            have := ih (page + 1) (by omega) (by omega)
            omega

/-- Claim C8: in the sequential paginated variant with early exit enabled
and `max_users = 1`, once a page yields the first matching user the
search stops: no page beyond the page on which the match was found is
ever requested (hence neither fetched nor scanned).  Page `p` is the
match page: no earlier page's batch stores anything and `p`'s batch
does. -/
theorem c8_early_exit_stops (data : List Rec) (P : Nat)
    (first last : String) (p f : Nat) (h1 : 1 ≤ p)
    (hmatch : (searchRecs ⟨first, last, true, 1⟩ []
      (pageSlice data P p)).1 ≠ [])
    (hbefore : ∀ q, 1 ≤ q → q < p →
      (searchRecs ⟨first, last, true, 1⟩ [] (pageSlice data P q)).1 = []) :
    reqsAbove p (seqRun ⟨first, last, true, 1⟩ data P f).1 = 0 :=
  seqRunF_no_reqs_above data P first last p hmatch hbefore f 1
    (le_refl 1) h1

/-- Witness for `c8_early_exit_stops`: the match is on page 1 of a
one-section source; the trace requests no page beyond 1. -/
theorem c8_early_exit_stops_witness :
    reqsAbove 1 (seqRun ⟨"John", "Doe", true, 1⟩
      [Rec.withActs none [⟨some "7", none, [("name", "John Doe")]⟩]]
      25 5).1 = 0 :=
  c8_early_exit_stops
    [Rec.withActs none [⟨some "7", none, [("name", "John Doe")]⟩]] 25
    "John" "Doe" 1 5 (by decide) (by decide)
    (fun q hq1 hq2 => absurd (Nat.lt_of_lt_of_le hq2 hq1) (by omega))

/-! ### Failure handling (C5) -/

/-- Window processing only ever appends to the accumulator. -/
theorem procBatch_retains (limit : Nat) :
    ∀ (rs : List PageRes) (coll : List Nat) (pwd : Nat),
      coll <+: (procBatch limit rs coll pwd).1 := by
  intro rs
  induction rs with
  | nil => intro coll pwd; exact List.prefix_rfl
  | cons r rest ih =>
    intro coll pwd
    cases r with
    | fail => exact ih coll pwd
    | ok us =>
      simp only [procBatch]
      by_cases h : us.length < limit
      · rw [if_pos h]
        by_cases hu : us.isEmpty <;> simp only [hu, if_true, if_false]
        · exact List.prefix_rfl
        · exact List.prefix_append coll us
      · rw [if_neg h]
        by_cases hu : us.isEmpty <;> simp only [hu, if_true, if_false]
        · exact ih coll _
        · exact (List.prefix_append coll us).trans (ih (coll ++ us) _)

/-- The concurrent window loop only ever appends to the accumulator:
whatever was collected before any window — in particular before a failed
page — is a prefix of the final result. -/
theorem concAux_retains (S : Nat → PageRes) (limit : Nat) :
    ∀ (f page : Nat) (coll : List Nat),
      coll <+: concAux S limit f page coll := by
  intro f
  induction f with
  | zero => intro page coll; exact List.prefix_rfl
  | succ f ih =>
    intro page coll
    simp only [concAux]
    by_cases h1 : (procBatch limit ((List.range 5).map fun i => S (page + i))
        coll 0).2.1
    · rw [if_pos h1]
      exact procBatch_retains limit _ coll 0
    · rw [if_neg h1]
      by_cases h2 : (procBatch limit ((List.range 5).map fun i => S (page + i))
          coll 0).2.2 = 0
      · rw [if_pos h2]
        exact procBatch_retains limit _ coll 0
      · rw [if_neg h2]
        exact (procBatch_retains limit _ coll 0).trans (ih _ _)

/-- Claim C5 counterexample: in `fetch_users_concurrent` with page size 2,
page 1 returns two records, page 2 fails, page 3 returns one record.  The
claim says the run "stops and returns exactly the records collected so
far" when a page fails after records were collected — that would be the
two records of page 1 — but the code logs the failure, skips the page
(`get_all_users.py:247-249`) and keeps consuming pages, returning three
records. -/
theorem c5_counterexample :
    fetch_users_concurrent
      (fun p => if p = 1 then PageRes.ok [0, 1]
        else if p = 2 then PageRes.fail
        else if p = 3 then PageRes.ok [2] else PageRes.ok []) 2 10 =
      [0, 1, 2] ∧ ([0, 1, 2] : List Nat) ≠ [0, 1] := by
  decide

/-- Claim C5 amended: in the sequential variant the claim holds as
stated: a failed page fetch ends the run at once, returning no result
when nothing was found yet and exactly the mapping found so far
otherwise.  In the concurrent variant a failed first page aborts with the
empty result, and a failed later page is logged and skipped: the run
keeps fetching, and everything collected before the failure is retained
(a prefix of the final result) — but the run does not stop there, so it
may return more than was collected at the failure
(`c5_counterexample`). -/
theorem c5_amended_failure_handling :
    (∀ (c : SearchCtx) (src : Nat → Option (List Rec)) (P f page : Nat)
       (fm : FoundMap), src page = none →
       seqRunF c src P (f + 1) page fm =
         ([Event.req page], if fm.isEmpty then none else some fm)) ∧
    (∀ (S : Nat → PageRes) (limit f : Nat), S 1 = PageRes.fail →
       fetch_users_concurrent S limit f = []) ∧
    (∀ (S : Nat → PageRes) (limit f page : Nat) (coll : List Nat),
       coll <+: concAux S limit f page coll) := by
  refine ⟨?_, ?_, ?_⟩
  · intro c src P f page fm hsrc
    simp only [seqRunF, hsrc]
  · intro S limit f h
    simp only [fetch_users_concurrent, h]
  · intro S limit f page coll
    exact concAux_retains S limit f page coll

/-- Witness for `c5_amended_failure_handling`: an always-failing source
returns the one found user at once in the sequential loop; a failing
first page yields the empty concurrent result; a collected pair survives
the window loop as a prefix. -/
theorem c5_amended_failure_handling_witness :
    seqRunF ⟨"John", "Doe", true, 3⟩ (fun _ => none) 25 5 2
        [("7", ⟨"7", ["S1"], [("name", "John Doe")]⟩)] =
      ([Event.req 2], some [("7", ⟨"7", ["S1"], [("name", "John Doe")]⟩)]) ∧
    fetch_users_concurrent (fun _ => PageRes.fail) 100 10 = [] ∧
    [0, 1] <+: concAux (fun _ => PageRes.ok []) 100 10 2 [0, 1] := by
  refine ⟨?_, c5_amended_failure_handling.2.1 _ 100 10 rfl,
    c5_amended_failure_handling.2.2 _ 100 10 2 [0, 1]⟩
  have h := c5_amended_failure_handling.1 ⟨"John", "Doe", true, 3⟩
    (fun _ => none) 25 4 2 [("7", ⟨"7", ["S1"], [("name", "John Doe")]⟩)] rfl
  simpa using h

/-! ### The SIGINT handler (C6) -/

/-- Claim C6: the interrupt handler always exits with code 130; and in
any mid-run state — pages processed so far either failed or were full
(an observed short or empty page would already have ended the run), with
at least one success and the output filename set — the handler writes to
that filename the JSON dump of exactly the records accumulated so far,
and that dump is non-empty.  The asynchronous delivery of the signal
itself is outside the embedding; the mid-run state is what the handler
can observe. -/
theorem c6_sigint_handler :
    (∀ (coll : List PyVal) (fn : String), (signal_handler coll fn).1 = 130) ∧
    (∀ (os : List (Option (List PyVal))) (P : Nat) (fn : String),
       0 < P → fn.isEmpty = false →
       (∀ o ∈ os, ∀ us, o = some us → us.length = P) →
       (∃ o ∈ os, o.isSome = true) →
       (signal_handler (os.filterMap id).flatten fn).2 =
         some (fn, save_json (os.filterMap id).flatten) ∧
       save_json (os.filterMap id).flatten ≠ "") := by
  refine ⟨fun coll fn => rfl, ?_⟩
  rintro os P fn hP hfn hfull ⟨o, ho, hsome⟩
  obtain ⟨us, rfl⟩ := Option.isSome_iff_exists.mp hsome
  have husP := hfull _ ho us rfl
  have husne : us ≠ [] := by
    intro h
    rw [h] at husP
    simp at husP
    omega
  have hmem : us ∈ os.filterMap id := by
    rw [List.mem_filterMap]
    exact ⟨some us, ho, rfl⟩
  have hcoll : (os.filterMap id).flatten ≠ [] := by
    intro h
    obtain ⟨x, hx⟩ := List.exists_mem_of_ne_nil us husne
    have hxm : x ∈ (os.filterMap id).flatten :=
      List.mem_flatten.mpr ⟨us, hmem, hx⟩
    rw [h] at hxm
    simp at hxm
  constructor
  · simp only [signal_handler]
    rw [if_pos]
    simp only [Bool.and_eq_true, Bool.not_eq_true']
    refine ⟨?_, hfn⟩
    cases hq : (os.filterMap id).flatten with
    | nil => exact absurd hq hcoll
    | cons x xs => simp [hq]
  · simp only [save_json, renderJson]
    intro h
    have hlen := congrArg String.length h
    simp only [String.length_append] at hlen
    have h1 : ("[" : String).length = 1 := rfl
    have h2 : ("]" : String).length = 1 := rfl
    have h0 : ("" : String).length = 0 := rfl
    omega

/-- Witness for `c6_sigint_handler`: one successful full page of two
records; the handler exits 130 and writes the two records to the set
filename. -/
theorem c6_sigint_handler_witness :
    (signal_handler [PyVal.vnum 1, PyVal.vnum 2] "rpt_users.json").1 = 130 ∧
    (signal_handler (([some [PyVal.vnum 1, PyVal.vnum 2]] :
        List (Option (List PyVal))).filterMap id).flatten
        "rpt_users.json").2 =
      some ("rpt_users.json", save_json (([some [PyVal.vnum 1, PyVal.vnum 2]] :
        List (Option (List PyVal))).filterMap id).flatten) ∧
    save_json (([some [PyVal.vnum 1, PyVal.vnum 2]] :
        List (Option (List PyVal))).filterMap id).flatten ≠ "" := by
  refine ⟨c6_sigint_handler.1 _ _, ?_⟩
  have h := c6_sigint_handler.2 [some [PyVal.vnum 1, PyVal.vnum 2]] 2
    "rpt_users.json" (by omega) rfl ?_ ?_
  · exact h
  · rintro o ho us hus
    simp only [List.mem_singleton] at ho
    subst ho
    cases hus
    rfl
  · exact ⟨some [PyVal.vnum 1, PyVal.vnum 2], by simp, rfl⟩

/-! ### Publication de-duplication (C10) -/

/-- The de-duplicated list is a sublist (order-preserving selection) of
its input. -/
theorem dedupPubs_sublist :
    ∀ (l : List Pub) (seen : List (Option String × Option String)),
      List.Sublist (dedupPubs seen l) l := by
  intro l
  induction l with
  | nil => intro seen; exact List.Sublist.refl []
  | cons p ps ih =>
    intro seen
    simp only [dedupPubs]
    by_cases h : pubKey p ∈ seen
    · rw [if_pos h]
      exact (ih seen).trans (List.sublist_cons_self p ps)
    · rw [if_neg h]
      exact (ih _).cons₂ p

/-- The de-duplicated list has pairwise-distinct keys, none of them in
`seen`. -/
theorem dedupPubs_nodup :
    ∀ (l : List Pub) (seen : List (Option String × Option String)),
      ((dedupPubs seen l).map pubKey).Nodup ∧
      ∀ p ∈ dedupPubs seen l, pubKey p ∉ seen := by
  intro l
  induction l with
  | nil => intro seen; exact ⟨List.nodup_nil, by simp [dedupPubs]⟩
  | cons p ps ih =>
    intro seen
    simp only [dedupPubs]
    by_cases h : pubKey p ∈ seen
    · rw [if_pos h]
      exact ih seen
    · rw [if_neg h]
      obtain ⟨hnd, hout⟩ := ih (pubKey p :: seen)
      refine ⟨?_, ?_⟩
      · simp only [List.map_cons, List.nodup_cons]
        refine ⟨?_, hnd⟩
        intro hmem
        obtain ⟨q, hq, hkq⟩ := List.mem_map.mp hmem
        exact hout q hq (by rw [hkq]; exact List.mem_cons_self _ _)
      · intro q hq
        rcases List.mem_cons.mp hq with rfl | hq'
        · exact h
        · intro hin
          exact hout q hq' (List.mem_cons_of_mem _ hin)

/-- Every kept entry is the first entry of the input with its key, among
the entries whose key was not already seen. -/
theorem dedupPubs_first :
    ∀ (l : List Pub) (seen : List (Option String × Option String))
      (p : Pub), p ∈ dedupPubs seen l →
      ∃ l₁ l₂, l = l₁ ++ p :: l₂ ∧
        ∀ q ∈ l₁, pubKey q ∈ seen ∨ pubKey q ≠ pubKey p := by
  intro l
  induction l with
  | nil => intro seen p hp; simp [dedupPubs] at hp
  | cons a ps ih =>
    intro seen p hp
    simp only [dedupPubs] at hp
    by_cases h : pubKey a ∈ seen
    · rw [if_pos h] at hp
      obtain ⟨l₁, l₂, heq, hq⟩ := ih seen p hp
      exact ⟨a :: l₁, l₂, by rw [heq]; rfl, by
        intro q hqm
        rcases List.mem_cons.mp hqm with rfl | hq'
        · exact Or.inl h
        · exact hq q hq'⟩
    · rw [if_neg h] at hp
      rcases List.mem_cons.mp hp with rfl | hp'
      · exact ⟨[], ps, rfl, by simp⟩
      · have hkp : pubKey p ∉ pubKey a :: seen :=
          (dedupPubs_nodup ps (pubKey a :: seen)).2 p hp'
        obtain ⟨l₁, l₂, heq, hq⟩ := ih (pubKey a :: seen) p hp'
        refine ⟨a :: l₁, l₂, by rw [heq]; rfl, ?_⟩
        intro q hqm
        rcases List.mem_cons.mp hqm with rfl | hq'
        · right
          intro hk
          exact hkp (by rw [← hk]; exact List.mem_cons_self _ _)
        · rcases hq q hq' with hin | hne
          · rcases List.mem_cons.mp hin with hk | hk
            · right
              intro hkk
              exact hkp (by rw [← hkk, hk]; exact List.mem_cons_self _ _)
            · exact Or.inl hk
          · exact Or.inr hne

/-- Every input key that is not already seen survives into the output. -/
theorem dedupPubs_complete :
    ∀ (l : List Pub) (seen : List (Option String × Option String))
      (q : Pub), q ∈ l → pubKey q ∈ seen ∨
        pubKey q ∈ (dedupPubs seen l).map pubKey := by
  intro l
  induction l with
  | nil => intro seen q hq; simp at hq
  | cons a ps ih =>
    intro seen q hq
    simp only [dedupPubs]
    by_cases h : pubKey a ∈ seen
    · rw [if_pos h]
      rcases List.mem_cons.mp hq with rfl | hq'
      · exact Or.inl h
      · exact ih seen q hq'
    · rw [if_neg h]
      rcases List.mem_cons.mp hq with rfl | hq'
      · exact Or.inr (by simp)
      · rcases ih (pubKey a :: seen) q hq' with hin | hin
        · rcases List.mem_cons.mp hin with hk | hk
          · exact Or.inr (by simp [hk])
          · exact Or.inl hk
        · exact Or.inr (by simp [hin])

/-- The publications component of `get_user_publications` is the
de-duplication of the encounter-ordered candidate list. -/
theorem get_user_publications_eq (profile : Profile)
    (all_activities : List PAct) (user_id : String) :
    (get_user_publications profile all_activities user_id).2 =
      dedupPubs [] (encounterPubs profile all_activities user_id) := rfl

/-- Claim C10: the publications list returned by `get_user_publications`
contains at most one entry per `(title, year)` pair (its key list has no
duplicates); the list is an order-preserving selection from the
encounter-ordered candidates (profile-derived before
activity-data-derived); each kept entry is the first encountered entry
with its key; and every encountered key is represented. -/
theorem c10_publications_dedup (profile : Profile)
    (all_activities : List PAct) (user_id : String) :
    (((get_user_publications profile all_activities user_id).2.map
        pubKey).Nodup) ∧
    List.Sublist (get_user_publications profile all_activities user_id).2
      (encounterPubs profile all_activities user_id) ∧
    (∀ p ∈ (get_user_publications profile all_activities user_id).2,
      ∃ l₁ l₂, encounterPubs profile all_activities user_id =
        l₁ ++ p :: l₂ ∧ ∀ q ∈ l₁, pubKey q ≠ pubKey p) ∧
    (∀ q ∈ encounterPubs profile all_activities user_id,
      pubKey q ∈ (get_user_publications profile all_activities
        user_id).2.map pubKey) := by
  rw [get_user_publications_eq]
  refine ⟨(dedupPubs_nodup _ []).1, dedupPubs_sublist _ [], ?_, ?_⟩
  · intro p hp
    obtain ⟨l₁, l₂, heq, hq⟩ := dedupPubs_first _ [] p hp
    refine ⟨l₁, l₂, heq, ?_⟩
    intro q hqm
    rcases hq q hqm with hin | hne
    · simp at hin
    · exact hne
  · intro q hq
    rcases dedupPubs_complete _ [] q hq with hin | hin
    · simp at hin
    · exact hin

/-- Witness companion for `c10_publications_dedup` at a concrete input
with a duplicate (title, year) pair. -/
theorem c10_publications_dedup_witness :
    ((get_user_publications
      ⟨[[("activity_type", "publication"), ("title", "T"),
         ("yearinfo", "2020")],
        [("activity_type", "publication"), ("title", "T"),
         ("yearinfo", "2020")]], []⟩ [] "1").2.map pubKey).Nodup :=
  (c10_publications_dedup _ _ _).1
